import Mathlib

/-!
# Verification of the PDFCore PDF generation library

A shallow embedding of the core of the PDFCore library (the PDF object
serializer and cross-reference builder, the font facade and embedder, the
page content builder, the measure/split layout engine and the two-pass flow
paginator), together with proofs and refutations of the specification
claims about it.

Modelling conventions:
* Rust `String`/`str` values are modelled as `Str := List Char`; all content
  emitted by the library is ASCII, and the writer's byte stream is modelled
  as a `List Char` of byte values (each entry below 256).
* Rust `f64` arithmetic is modelled by exact rational arithmetic over `ℚ`.
  The literal `1.2` is modelled as `6/5`.  Width scaling done in `f32`
  (`width as f32 * (1000.0 / units_per_em as f32)` truncated to an integer)
  is modelled by exact integer multiplication followed by truncating
  division; for `units_per_em = 1000` (used by every concrete instance
  below) the two computations agree exactly.
* `f64::INFINITY`, which flows through layout constraints, is modelled by
  `Option ℚ` (`none` = positive infinity).
* Text shaping (rustybuzz) is modelled as a per-character glyph lookup
  `charGid : Char → ℕ`; the advance of a glyph is its `hmtx` advance.  This
  matches the library's own measurement convention (sum of raw `hmtx`
  advances, no kerning).
* External collaborators that the spec declares out of scope (the zlib
  compressor and the font subsetter) are passed in as explicit function
  parameters.
-/

namespace PDFCore

/-- Rust strings modelled as lists of characters. -/
abbrev Str := List Char

/-- Decimal digits of a natural number (Rust integer `Display`). -/
def natChars (n : ℕ) : Str := (toString n).data

/-- Decimal digits of an integer (Rust integer `Display`). -/
def intChars (i : ℤ) : Str := (toString i).data

/-- Rendering of an `f64` value (Rust `Display`).  Integral values print
with no decimal point, exactly as in Rust.  Non-integral values are printed
as `num/den`; every value that reaches the byte-level claims in this
development is integral, where this model agrees with Rust byte-for-byte. -/
def fmtNum (q : ℚ) : Str :=
  if q.den = 1 then intChars q.num
  else intChars q.num ++ '/' :: natChars q.den

/-- `f64` values extended with positive infinity (`none`). -/
abbrev QInf := Option ℚ

/-- `x <= width` for a possibly infinite width. -/
def leQI (x : ℚ) : QInf → Bool
  | none => true
  | some w => decide (x ≤ w)

/-- `x > width` for a possibly infinite width. -/
def gtQI (x : ℚ) : QInf → Bool
  | none => false
  | some w => decide (w < x)

@[simp] theorem leQI_some (x w : ℚ) : leQI x (some w) = decide (x ≤ w) := rfl

@[simp] theorem gtQI_some (x w : ℚ) : gtQI x (some w) = decide (w < x) := rfl

/-- Model of Rust `str::split_whitespace`: maximal runs of non-whitespace
characters, in order, with empty runs dropped. -/
def splitWhitespace : Str → List Str
  | [] => []
  | c :: rest =>
    if c.isWhitespace then splitWhitespace rest
    else
      match rest with
      | [] => [[c]]
      | d :: _ =>
        if d.isWhitespace then [c] :: splitWhitespace rest
        else
          match splitWhitespace rest with
          | [] => [[c]]
          | w :: ws => (c :: w) :: ws

/-- Joining a word list with single spaces (Rust `join(" ")`). -/
def joinSp : List Str → Str
  | [] => []
  | w :: ws =>
    match ws with
    | [] => w
    | _ :: _ => w ++ ' ' :: joinSp ws

/-! ## Font facade (`core/font.rs`) -/

/-- A shaped glyph (`core/font.rs` `ShapedGlyph`). -/
structure ShapedGlyphM where
  glyphId : ℕ
  xAdvance : ℚ
  yAdvance : ℚ
  xOffset : ℚ
  yOffset : ℚ
deriving DecidableEq

/-- The parsed font face (`core/font.rs` `Font`).  The fields record what the
library reads out of the TrueType tables: `glyphWidths` is the `hmtx`
advance of each glyph (indexed by glyph id), and `charGid` models the
shaping engine's character-to-glyph mapping. -/
structure FontM where
  glyphWidths : List ℕ
  unitsPerEm : ℕ
  name : Str
  faceData : Str
  charGid : Char → ℕ
  ascender : ℤ
  descender : ℤ
  capitalHeight : Option ℤ
  italicAngle : ℚ
  bboxXMin : ℤ
  bboxYMin : ℤ
  bboxXMax : ℤ
  bboxYMax : ℤ

namespace FontM

/-- `Font::get_glyph_width`: `hmtx` advance, `unwrap_or(0)`. -/
def getGlyphWidth (f : FontM) (gid : ℕ) : ℕ := f.glyphWidths.getD gid 0

/-- `Font::number_of_glyphs`. -/
def numberOfGlyphs (f : FontM) : ℕ := f.glyphWidths.length

/-- `Font::shape_text`: one glyph per character, advances scaled by
`size / units_per_em`. -/
def shapeText (f : FontM) (text : Str) (size : ℚ) : List ShapedGlyphM :=
  let scale := size / (f.unitsPerEm : ℚ)
  text.map fun c =>
    { glyphId := f.charGid c
      xAdvance := (f.getGlyphWidth (f.charGid c) : ℚ) * scale
      yAdvance := 0, xOffset := 0, yOffset := 0 }

/-- `Font::measure_text`: sum of raw glyph widths of the shaped run, scaled
by `size / units_per_em` (kerning deliberately ignored). -/
def measureText (f : FontM) (text : Str) (size : ℚ) : ℚ :=
  let scale := size / (f.unitsPerEm : ℚ)
  ((f.shapeText text size).map fun g => (f.getGlyphWidth g.glyphId : ℚ) * scale).sum

/-- `Font::ascent` (scaled to 1000 units; Rust integer division truncates
toward zero, which is `Int.tdiv`). -/
def ascent (f : FontM) : ℤ := Int.tdiv (f.ascender * 1000) (f.unitsPerEm : ℤ)

/-- `Font::descent`. -/
def descent (f : FontM) : ℤ := Int.tdiv (f.descender * 1000) (f.unitsPerEm : ℤ)

/-- `Font::cap_height` (falls back to 70% of the ascent). -/
def capHeight (f : FontM) : ℤ :=
  match f.capitalHeight with
  | some ch => Int.tdiv (ch * 1000) (f.unitsPerEm : ℤ)
  | none => Int.tdiv (f.ascent * 70) 100

/-- `Font::bbox` (each coordinate scaled to 1000 units; `f32` truncation
toward zero modelled by `Int.tdiv`). -/
def bbox (f : FontM) : ℤ × ℤ × ℤ × ℤ :=
  (Int.tdiv (f.bboxXMin * 1000) (f.unitsPerEm : ℤ), Int.tdiv (f.bboxYMin * 1000) (f.unitsPerEm : ℤ),
   Int.tdiv (f.bboxXMax * 1000) (f.unitsPerEm : ℤ), Int.tdiv (f.bboxYMax * 1000) (f.unitsPerEm : ℤ))

end FontM

/-! ## Text wrapping (`core/text.rs`) -/

/-- The character-level fallback of `calculate_text_lines` (lines 26-47 of
`core/text.rs`): break an over-wide word by characters, counting flushed
lines. -/
def charBreakCount (font : FontM) (width : QInf) (size : ℚ) :
    List Char → Str → ℕ → ℕ
  | [], charBuf, cnt => if charBuf = [] then cnt else cnt + 1
  | ch :: rest, charBuf, cnt =>
    if leQI (font.measureText (charBuf ++ [ch]) size) width then
      charBreakCount font width size rest (charBuf ++ [ch]) cnt
    else
      charBreakCount font width size rest [ch] (if charBuf = [] then cnt else cnt + 1)

/-- The word loop of `calculate_text_lines` (`core/text.rs` lines 14-77):
greedy fill with character-level fallback for over-wide words.  The final
`if !buffer.is_empty` bump is folded into the base case. -/
def calcLinesAux (font : FontM) (width : QInf) (size : ℚ) :
    List Str → List Str → ℕ → ℕ
  | [], buffer, cnt => if buffer = [] then cnt else cnt + 1
  | word :: ws, buffer, cnt =>
    if gtQI (font.measureText word size) width then
      let cnt1 := if buffer = [] then cnt else cnt + 1
      calcLinesAux font width size ws [] (charBreakCount font width size word [] cnt1)
    else
      if leQI (font.measureText (joinSp (buffer ++ [word])) size) width then
        calcLinesAux font width size ws (buffer ++ [word]) cnt
      else
        calcLinesAux font width size ws [word] (if buffer = [] then cnt else cnt + 1)

/-- `calculate_text_lines` (`core/text.rs`): number of wrapped lines, at
least 1, and 1 for empty input. -/
def calculateTextLines (font : FontM) (width : QInf) (size : ℚ) (text : Str) : ℕ :=
  if text = [] then 1
  else max (calcLinesAux font width size (splitWhitespace text) [] 0) 1

/-- Flushing a line into the head string (`core/text.rs` lines 130-133):
separate flushed lines with a single space. -/
def appendLine (head line : Str) : Str :=
  if head = [] then line else head ++ ' ' :: line

/-- The while loop of `split_text_at_lines` (`core/text.rs` lines 106-167)
together with its post-loop returns.  The source's loop leaves an unconsumed
trigger word for the following iteration; the translation inlines that
following iteration (the `buffer = []` re-examination of the same word), so
that every recursive call consumes one word and the recursion is structural.
State: remaining words, flushed head string, current line buffer, current
line number (starting at 1). -/
def splitLoop (font : FontM) (w size : ℚ) (maxLines : ℕ) :
    List Str → Str → List Str → ℕ → Str × Option Str
  | [], headStr, buf, cur =>
    if buf ≠ [] then
      if cur ≤ maxLines then (appendLine headStr (joinSp buf), none)
      else (headStr, some (joinSp buf))
    else (headStr, some [])
  | word :: rest, headStr, buf, cur =>
    if leQI (font.measureText (joinSp (buf ++ [word])) size) (some w) then
      splitLoop font w size maxLines rest headStr (buf ++ [word]) cur
    else if buf = [] then
      -- the word alone is wider than the line: forced break, word consumed
      let head' := appendLine headStr word
      if maxLines ≤ cur then (head', some (joinSp rest))
      else splitLoop font w size maxLines rest head' [] (cur + 1)
    else
      -- flush the current line; the trigger word is not consumed
      let head' := appendLine headStr (joinSp buf)
      if maxLines ≤ cur then (head', some (joinSp (word :: rest)))
      else
        -- next iteration of the source loop, with an empty buffer
        if leQI (font.measureText (joinSp [word]) size) (some w) then
          splitLoop font w size maxLines rest head' [word] (cur + 1)
        else
          -- forced break of the trigger word
          let head'' := appendLine head' word
          if maxLines ≤ cur + 1 then (head'', some (joinSp rest))
          else splitLoop font w size maxLines rest head'' [] (cur + 2)

/-- `split_text_at_lines` (`core/text.rs` lines 82-168): split `text` into a
head of at most `maxLines` wrapped lines and an optional remainder. -/
def splitTextAtLines (font : FontM) (w size : ℚ) (text : Str) (maxLines : ℕ) :
    Str × Option Str :=
  if maxLines = 0 then ([], some text)
  else splitLoop font w size maxLines (splitWhitespace text) [] [] 1


/-! ## Literal-string escaping (`core/writer.rs` lines 61-63) -/

/-- `pat` occurs at the head of the string. -/
def headMatches : Str → Str → Bool
  | [], _ => true
  | _ :: _, [] => false
  | p :: ps, c :: cs => p == c && headMatches ps cs

/-- One Rust `str::replace` pass: replace every non-overlapping occurrence
of `pat` (scanning left to right) by `rep`. -/
def replaceAll (pat rep : Str) : Str → Str
  | [] => []
  | c :: rest =>
    if h : pat ≠ [] ∧ headMatches pat (c :: rest) then
      rep ++ replaceAll pat rep ((c :: rest).drop pat.length)
    else c :: replaceAll pat rep rest
termination_by s => s.length
decreasing_by
  · obtain ⟨h1, -⟩ := h
    cases pat with
    | nil => exact absurd rfl h1
    | cons p ps => simp only [List.length_drop, List.length_cons]; omega
  · simp

/-- `escape_string` (`core/writer.rs`): escape backslash and parentheses by
three sequential `replace` passes. -/
def escape_string (s : Str) : Str :=
  replaceAll [')'] ['\\', ')'] (replaceAll ['('] ['\\', '('] (replaceAll ['\\'] ['\\', '\\'] s))

/-! ## The PDF object model and byte writer (`core/writer.rs`) -/

/-- `PdfObject` (`core/writer.rs` lines 5-17). -/
inductive PdfObject where
  | null
  | boolean (b : Bool)
  | integer (i : ℤ)
  | real (r : ℚ)
  | name (n : Str)
  | string (s : Str)
  | array (xs : List PdfObject)
  | dictionary (d : List (Str × PdfObject))
  | stream (d : List (Str × PdfObject)) (content : Str)
  | reference (id : ℕ)

mutual

/-- `PdfObject::serialize` (`core/writer.rs` lines 21-58). -/
def serialize : PdfObject → Str
  | .null => "null".data
  | .boolean b => if b then "true".data else "false".data
  | .integer i => intChars i
  | .real r => fmtNum r
  | .name n => '/' :: n
  | .string s => '(' :: (escape_string s ++ [')'])
  | .array xs => '[' :: (serializeItems xs ++ [']'])
  | .dictionary d => "<<".data ++ serializeEntries d ++ " >>".data
  | .stream d content =>
    "<<".data ++ serializeEntries d ++ " /Length ".data ++ natChars content.length
      ++ " >>\nstream\n".data ++ content ++ "\nendstream".data
  | .reference id => natChars id ++ " 0 R".data

/-- Array elements, space separated. -/
def serializeItems : List PdfObject → Str
  | [] => []
  | [x] => serialize x
  | x :: y :: xs => serialize x ++ ' ' :: serializeItems (y :: xs)

/-- Dictionary entries, each as a space, the slash-prefixed key, a space and
the serialized value. -/
def serializeEntries : List (Str × PdfObject) → Str
  | [] => []
  | (k, v) :: rest => ' ' :: '/' :: (k ++ ' ' :: (serialize v ++ serializeEntries rest))

end

/-- The bytes `write_object` appends for one indirect object. -/
def objChunk (p : ℕ × PdfObject) : Str :=
  natChars p.1 ++ " 0 obj\n".data ++ serialize p.2 ++ "\nendobj\n".data

/-- The header written by `PdfWriter::new`: the version line and the binary
marker comment (a percent byte followed by four bytes at or above 0x80). -/
def headerBytes : Str :=
  "%PDF-1.7\n%".data
    ++ [Char.ofNat 0x93, Char.ofNat 0x8C, Char.ofNat 0x8B, Char.ofNat 0x9E]
    ++ "\n".data

/-- `PdfWriter` (`core/writer.rs` lines 68-72).  `data` is the byte stream
written so far; `offset` mirrors the tracked write position (the source
flushes and reads `stream_position()` after every object, so it always
equals the number of bytes written); `xref` is the recorded (id, offset)
list.  `objects` is a verification-only log of the `write_object` calls; it
adds no behavior. -/
structure PdfWriterM where
  data : Str
  offset : ℕ
  xref : List (ℕ × ℕ)
  objects : List (ℕ × PdfObject)

namespace PdfWriterM

/-- `PdfWriter::new`: write the header. -/
def new : PdfWriterM :=
  { data := headerBytes, offset := headerBytes.length, xref := [], objects := [] }

/-- `PdfWriter::write_object` (`core/writer.rs` lines 101-126): record the
current offset in the xref, then append `id 0 obj`, the serialized object
and `endobj`. -/
def writeObject (w : PdfWriterM) (id : ℕ) (obj : PdfObject) : PdfWriterM :=
  { data := w.data ++ objChunk (id, obj)
    offset := (w.data ++ objChunk (id, obj)).length
    xref := w.xref ++ [(id, w.offset)]
    objects := w.objects ++ [(id, obj)] }

/-- One recorded xref entry line: the 10-digit zero padded offset, then a
space, the generation `00000`, the `n` flag and a trailing space. -/
def xrefEntryLine (off : ℕ) : Str :=
  List.replicate (10 - (natChars off).length) '0' ++ natChars off ++ " 00000 n \n".data

/-- `PdfWriter::write_xref_and_trailer` (`core/writer.rs` lines 132-162):
sort the recorded entries by id (Rust `sort_by_key`, a stable sort), write
the xref table, the trailer dictionary, `startxref`, the byte offset of the
xref section and the end-of-file marker. -/
def writeXrefAndTrailer (w : PdfWriterM) (rootId : ℕ) : PdfWriterM :=
  let xrefOffset := w.offset
  let sorted := w.xref.mergeSort (fun a b => a.1 ≤ b.1)
  let block :=
    "xref\n0 ".data ++ natChars (w.xref.length + 1) ++ "\n".data
      ++ "0000000000 65535 f \n".data
      ++ (sorted.map fun e => xrefEntryLine e.2).flatten
      ++ "trailer\n<< /Size ".data ++ natChars (w.xref.length + 1)
      ++ " /Root ".data ++ natChars rootId ++ " 0 R >>".data
      ++ "\nstartxref\n".data
      ++ natChars xrefOffset ++ "\n".data
      ++ "%%EOF\n".data
  { w with data := w.data ++ block, offset := (w.data ++ block).length }

end PdfWriterM


/-- The character-level effect of `escape_string`: the three sequential
`replace` passes amount to this per-character substitution (proved below in
`escape_string_eq_flatMap`). -/
def escapeChar (c : Char) : Str :=
  if c = '\\' then ['\\', '\\']
  else if c = '(' then ['\\', '(']
  else if c = ')' then ['\\', ')']
  else [c]


/-! ## Pages (`core/page.rs`) -/

/-- Rust `u16` formatting with 4 lowercase hex digits, zero padded. -/
def toHex4 (n : ℕ) : Str :=
  let ds := Nat.toDigits 16 n
  List.replicate (4 - ds.length) '0' ++ ds

/-- `Page` (`core/page.rs` lines 7-14).  `used_glyphs` maps a font index to
the set of glyph ids referenced on the page (a Rust `HashMap` of
`HashSet`s, modelled as a partial function to finite sets); `used_images`
is the set of image indices drawn on the page. -/
structure PageM where
  width : ℚ
  height : ℚ
  content : Str
  usedGlyphs : ℕ → Option (Finset ℕ)
  usedImages : Finset ℕ

namespace PageM

/-- `Page::new`. -/
def new (width height : ℚ) : PageM :=
  { width := width, height := height, content := [], usedGlyphs := fun _ => none,
    usedImages := ∅ }

/-- `Page::text` (`core/page.rs` lines 29-33): built-in font text. -/
def text (p : PageM) (t : Str) (x y size : ℚ) : PageM :=
  { p with
    content := p.content
      ++ ("BT /F1 ".data ++ fmtNum size ++ ' ' :: "Tf ".data ++ fmtNum x ++ ' ' :: fmtNum y
        ++ " Td (".data ++ escape_string t ++ ") Tj ET ".data) }

/-- `Page::text_with_font` (`core/page.rs` lines 38-64): shape the text,
record the shaped glyph ids under the font index, and append the custom
text operator sequence (including the `0 g` black-fill reset the source
inserts between `q` and `BT`).  Glyph ids are written as 4 hex digits each,
most significant byte first, between angle brackets. -/
def textWithFont (p : PageM) (t : Str) (x y size : ℚ) (fontIndex : ℕ) (font : FontM) :
    PageM :=
  let shaped := font.shapeText t size
  let fontName := 'F' :: natChars (fontIndex + 2)
  let hexContent := '<' :: ((shaped.map fun g => toHex4 g.glyphId).flatten ++ ['>'])
  { p with
    usedGlyphs := fun m =>
      if m = fontIndex then
        some ((p.usedGlyphs fontIndex).getD ∅ ∪ (shaped.map fun g => g.glyphId).toFinset)
      else p.usedGlyphs m
    content := p.content
      ++ ("q 0 g BT /".data ++ fontName ++ ' ' :: fmtNum size ++ ' ' :: "Tf ".data
        ++ fmtNum x ++ ' ' :: fmtNum y ++ " Td ".data ++ hexContent
        ++ " Tj ET Q ".data) }

/-- `Page::draw_image` (`core/page.rs` lines 228-239). -/
def drawImage (p : PageM) (imageIndex : ℕ) (x y width height : ℚ) : PageM :=
  { p with
    usedImages := insert imageIndex p.usedImages
    content := p.content
      ++ ("q ".data ++ fmtNum width ++ " 0 0 ".data ++ fmtNum height ++ ' ' :: fmtNum x
        ++ ' ' :: fmtNum y ++ " cm /Im".data ++ natChars imageIndex ++ " Do Q ".data) }

/-- `Page::draw_line` (`core/page.rs` lines 242-249). -/
def drawLine (p : PageM) (x1 y1 x2 y2 width : ℚ) : PageM :=
  { p with
    content := p.content
      ++ (fmtNum width ++ " w ".data ++ fmtNum x1 ++ ' ' :: fmtNum y1 ++ " m ".data
        ++ fmtNum x2 ++ ' ' :: fmtNum y2 ++ " l S ".data) }

/-- `Page::draw_rect` (`core/page.rs` lines 252-259). -/
def drawRect (p : PageM) (x y w h width : ℚ) : PageM :=
  { p with
    content := p.content
      ++ (fmtNum width ++ " w ".data ++ fmtNum x ++ ' ' :: fmtNum y ++ ' ' :: fmtNum w
        ++ ' ' :: fmtNum h ++ " re S ".data) }

/-- `Page::draw_fill_rect` (`core/page.rs` lines 262-269). -/
def drawFillRect (p : PageM) (x y w h gray : ℚ) : PageM :=
  { p with
    content := p.content
      ++ (fmtNum gray ++ " g ".data ++ fmtNum x ++ ' ' :: fmtNum y ++ ' ' :: fmtNum w
        ++ ' ' :: fmtNum h ++ " re f ".data) }

end PageM


/-! ## Colors (`core/color.rs`), tables (`core/table.rs`) -/

/-- `Color` (`core/color.rs`). -/
structure ColorM where
  r : ℚ
  g : ℚ
  b : ℚ
  a : ℚ
deriving DecidableEq

/-- `Color::black`. -/
def ColorM.black : ColorM := ⟨0, 0, 0, 1⟩

/-- `TextAlign` (`core/table.rs`). -/
inductive TextAlignM where
  | left
  | center
  | right
deriving DecidableEq

/-- `TableColumn` (`core/table.rs`). -/
structure TableColumnM where
  header : Str
  width : ℚ
  align : TextAlignM
  field : Option Str
deriving DecidableEq

/-- `TableSettings` (`core/table.rs`). -/
structure TableSettingsM where
  padding : ℚ
  borderWidth : ℚ
  headerHeight : ℚ
  cellHeight : ℚ
  fontSize : ℚ
deriving DecidableEq

/-- `TableSettings::default`. -/
def TableSettingsM.default : TableSettingsM :=
  { padding := 5, borderWidth := 1, headerHeight := 30, cellHeight := 20, fontSize := 10 }

/-- `Table` (`core/table.rs`). -/
structure TableM where
  columns : List TableColumnM
  rows : List (List Str)
  settings : TableSettingsM
deriving DecidableEq

/-- Column width for cell index `i` (`core/layout.rs` lines 460, 499:
out-of-range cells use a fixed width of 100). -/
def colWidthAt (cols : List TableColumnM) (i : ℕ) : ℚ :=
  match cols.get? i with
  | some c => c.width
  | none => 100

/-- Maximum wrapped line count over the cells of one row
(`core/layout.rs` lines 497-503, starting from 1). -/
def rowMaxLines (t : TableM) (font : FontM) (row : List Str) : ℕ :=
  row.enum.foldl
    (fun m p =>
      max m (calculateTextLines font
        (some (colWidthAt t.columns p.1 - 2 * t.settings.padding)) t.settings.fontSize p.2))
    1

/-- Height of one data row (`core/layout.rs` lines 504-505):
`max_lines * (font_size * 1.2) + 2 * padding + 8`. -/
def rowHeight (t : TableM) (font : FontM) (row : List Str) : ℚ :=
  (rowMaxLines t font row : ℚ) * (t.settings.fontSize * (6 / 5)) + 2 * t.settings.padding + 8

/-! ## The layout engine (`core/layout.rs`) -/

/-- `PageContext` (`core/layout.rs` lines 8-11). -/
structure PageContextM where
  current : ℕ
  total : ℕ
deriving DecidableEq

/-- A measured size.  Widths may be infinite (`f64::INFINITY` flows through
width constraints); the heights computed by the library are always
finite. -/
structure SizeM where
  width : QInf
  height : ℚ

/-- `Constraints` (`core/layout.rs` lines 33-39). -/
structure ConstraintsM where
  minWidth : ℚ
  maxWidth : QInf
  minHeight : ℚ
  maxHeight : QInf

/-- `Constraints::loose`. -/
def ConstraintsM.loose (w h : QInf) : ConstraintsM := ⟨0, w, 0, h⟩

/-- Maximum of two possibly-infinite values. -/
def maxQI : QInf → QInf → QInf
  | none, _ => none
  | _, none => none
  | some a, some b => some (max a b)

/-- Sum of two possibly-infinite values. -/
def addQI : QInf → QInf → QInf
  | none, _ => none
  | _, none => none
  | some a, some b => some (a + b)

/-- Add a finite value to a possibly-infinite one. -/
def addQIQ (a : QInf) (b : ℚ) : QInf := a.map (· + b)

/-- Subtract a finite value from a possibly-infinite one. -/
def subQIQ (a : QInf) (b : ℚ) : QInf := a.map (· - b)

/-- `(x - r).max(0)` on a possibly-infinite value (used by
`Container::measure` to shrink constraints). -/
def subClampQI (a : QInf) (b : ℚ) : QInf := a.map fun x => max (x - b) 0

/-- Minimum of a finite value and a possibly-infinite one. -/
def minQQI (x : ℚ) : QInf → ℚ
  | none => x
  | some w => min x w

/-- Floor of an `f64` cast to `usize` (saturating at 0 for negative
values). -/
def natFloor (q : ℚ) : ℕ := ⌊q⌋.toNat

/-- The layout node variants (`core/layout.rs`): Column, Row, TextNode,
Container, ImageNode, TableNode, PageNumberNode. -/
inductive LayoutNodeM where
  | column (children : List LayoutNodeM) (spacing : ℚ)
  | row (children : List LayoutNodeM) (spacing : ℚ)
  | text (text : Str) (size : ℚ) (color : Option ColorM) (backgroundColor : Option ColorM)
  | container (child : LayoutNodeM) (padding : ℚ) (borderWidth : ℚ)
  | image (imageIndex : ℕ) (width : ℚ) (height : ℚ)
  | table (t : TableM)
  | pageNumber (format : Str) (size : ℚ) (align : Str)

/-- `SplitAction` (`core/layout.rs` lines 67-71). -/
inductive SplitActionM where
  | Fit
  | Push
  | Split (head : LayoutNodeM) (tail : LayoutNodeM)

mutual

/-- `LayoutNode::measure` for each variant (`core/layout.rs`). -/
def measureNode : LayoutNodeM → ConstraintsM → FontM → SizeM
  | .column children spacing, c, font =>
    -- `Column::measure`: width is the max child width (at least min_width),
    -- height the sum of child heights plus spacing between items
    let p := measureColumnChildren spacing children c font
    let height := if children.isEmpty then p.2 else p.2 - spacing
    ⟨maxQI p.1 (some c.minWidth), height⟩
  | .row children spacing, c, font =>
    -- `Row::measure`: width is the sum plus spacing, height the max
    let p := measureRowChildren spacing children c font
    let width := if children.isEmpty then p.1 else subQIQ p.1 spacing
    ⟨width, p.2⟩
  | .text txt size _ _, c, font =>
    -- `TextNode::measure`: wrap at the constrained width
    let raw := font.measureText txt size
    let width :=
      match c.maxWidth with
      | some mw => min raw mw
      | none => raw
    let lines := calculateTextLines font (some width) size txt
    ⟨some width, (lines : ℚ) * (size * (6 / 5))⟩
  | .container child padding borderWidth, c, font =>
    -- `Container::measure`: shrink constraints by padding and border on
    -- all sides, grow the child size back
    let reduction := (padding + borderWidth) * 2
    let cc : ConstraintsM :=
      ⟨max (c.minWidth - reduction) 0, subClampQI c.maxWidth reduction,
       max (c.minHeight - reduction) 0, subClampQI c.maxHeight reduction⟩
    let sz := measureNode child cc font
    ⟨addQIQ sz.width reduction, sz.height + reduction⟩
  | .image _ width height, c, _ =>
    -- `ImageNode::measure`: intrinsic size clipped to the constraints
    ⟨some (minQQI width c.maxWidth), minQQI height c.maxHeight⟩
  | .table t, _, font =>
    -- `TableNode::measure`: column widths, header plus row heights
    ⟨some (t.columns.map fun col => col.width).sum,
     t.settings.headerHeight + (t.rows.map fun row => rowHeight t font row).sum⟩
  | .pageNumber format size _, c, font =>
    -- `PageNumberNode::measure`: placeholders replaced by 999 for a
    -- worst-case sample
    let sample := replaceAll "{total}".data "999".data
      (replaceAll "{page}".data "999".data format)
    let lines := calculateTextLines font c.maxWidth size sample
    ⟨c.maxWidth, (lines : ℚ) * (size * (6 / 5))⟩

/-- The fold of `Column::measure` over the children: accumulated maximum
width and sum of heights (each child contributing `height + spacing`). -/
def measureColumnChildren (spacing : ℚ) :
    List LayoutNodeM → ConstraintsM → FontM → QInf × ℚ
  | [], _, _ => (some 0, 0)
  | child :: rest, c, font =>
    let sz := measureNode child c font
    let p := measureColumnChildren spacing rest c font
    (maxQI p.1 sz.width, sz.height + spacing + p.2)

/-- The fold of `Row::measure` over the children: accumulated sum of widths
(each child contributing `width + spacing`) and maximum height. -/
def measureRowChildren (spacing : ℚ) :
    List LayoutNodeM → ConstraintsM → FontM → QInf × ℚ
  | [], _, _ => (some 0, 0)
  | child :: rest, c, font =>
    let sz := measureNode child c font
    let p := measureRowChildren spacing rest c font
    (addQI (addQIQ sz.width spacing) p.1, max sz.height p.2)

end

/-- Result of the row walk of `TableNode::split`. -/
inductive TableLoopResult where
  | fit
  | push
  | splitAt (i : ℕ)
deriving DecidableEq

/-- The row walk of `TableNode::split` (`core/layout.rs` lines 495-518):
accumulate row heights until one would exceed the available data area; if
the first row already exceeds it, push. -/
def tableSplitLoop (t : TableM) (font : FontM) (dataAvailable : ℚ) :
    List (List Str) → ℕ → ℚ → TableLoopResult
  | [], _, _ => .fit
  | row :: rest, i, currentHeight =>
    let rh := rowHeight t font row
    if dataAvailable < currentHeight + rh then
      if i = 0 then .push else .splitAt i
    else tableSplitLoop t font dataAvailable rest (i + 1) (currentHeight + rh)

mutual

/-- `LayoutNode::split` for each variant (`core/layout.rs`). -/
def splitNode : LayoutNodeM → ℚ → ℚ → FontM → SplitActionM
  | .column children spacing, availW, availH, font =>
    -- `Column::split` (lines 127-212)
    (match columnSplitLoop availW availH spacing font children 0 0 with
    | none => .Fit
    | some (idx, parts) =>
      let headChildren := children.take idx
        ++ (match parts with | some (h, _) => [h] | none => [])
      let tailChildren := (match parts with | some (_, t) => [t] | none => [])
        ++ children.drop (match parts with | some _ => idx + 1 | none => idx)
      if headChildren.isEmpty then .Push
      else .Split (.column headChildren spacing) (.column tailChildren spacing))
  | .row children spacing, _, availH, font =>
    -- `Row::split` (lines 254-261): fits iff the measured height fits
    let size := measureNode (.row children spacing) (.loose none none) font
    if size.height ≤ availH then .Fit else .Push
  | .text txt size color bg, availW, availH, font =>
    -- `TextNode::split` (lines 302-323)
    let leading := size * (6 / 5)
    let maxLines := natFloor (availH / leading)
    if maxLines = 0 then .Push
    else
      (match splitTextAtLines font availW size txt maxLines with
      | (head, some tail) => .Split (.text head size color bg) (.text tail size color bg)
      | (_, none) => .Fit)
  | .container child padding borderWidth, availW, availH, font =>
    -- `Container::split` (lines 372-391)
    let reduction := (padding + borderWidth) * 2
    if availH - reduction ≤ 0 then .Push
    else
      (match splitNode child (availW - reduction) (availH - reduction) font with
      | .Fit => .Fit
      | .Push => .Push
      | .Split h t =>
        .Split (.container h padding borderWidth) (.container t padding borderWidth))
  | .image _ _ height, _, availH, _ =>
    -- `ImageNode::split` (lines 432-438)
    if height ≤ availH then .Fit else .Push
  | .table t, _, availH, font =>
    -- `TableNode::split` (lines 477-538)
    let dataAvailable := availH - t.settings.headerHeight
    if dataAvailable ≤ 0 then .Push
    else
      (match tableSplitLoop t font dataAvailable t.rows 0 0 with
      | .fit => .Fit
      | .push => .Push
      | .splitAt idx =>
        .Split (.table { t with rows := t.rows.take idx })
          (.table { t with rows := t.rows.drop idx }))
  | .pageNumber format size _, availW, availH, font =>
    -- `PageNumberNode::split` (lines 578-589)
    let lines := calculateTextLines font (some availW) size format
    let leading := size * (6 / 5)
    if (lines : ℚ) * leading ≤ availH then .Fit else .Push

/-- The child walk of `Column::split` (`core/layout.rs` lines 132-177):
measure each child; once one no longer fits under the 5-unit safety margin,
try to split it in the remaining height.  Returns `none` when every child
fits, otherwise the index of the first non-fitting child together with the
optional (head, tail) parts produced by its own split. -/
def columnSplitLoop (availW availH spacing : ℚ) (font : FontM) :
    List LayoutNodeM → ℕ → ℚ → Option (ℕ × Option (LayoutNodeM × LayoutNodeM))
  | [], _, _ => none
  | child :: rest, i, usedHeight =>
    let size := measureNode child (.loose (some availW) none) font
    let sp := if 0 < i then spacing else 0
    if availH - 5 < usedHeight + sp + size.height then
      let remaining := availH - (usedHeight + sp)
      if remaining ≤ 0 then some (i, none)
      else
        (match splitNode child availW remaining font with
        | .Fit => columnSplitLoop availW availH spacing font rest (i + 1)
            (usedHeight + sp + size.height)
        | .Push => some (i, none)
        | .Split h t => some (i, some (h, t)))
    else columnSplitLoop availW availH spacing font rest (i + 1)
      (usedHeight + sp + size.height)

end

/-- `PageNumberNode::render`, placeholder substitution only
(`core/layout.rs` lines 558-562): replace every occurrence of the page
placeholder by the current 1-based page number and of the total placeholder
by the total page count. -/
def pageNumberResolvedText (format : Str) (ctx : PageContextM) : Str :=
  replaceAll "{total}".data (natChars ctx.total)
    (replaceAll "{page}".data (natChars ctx.current) format)

/-! ## The flow paginator (`src/lib.rs` `Document::render_flow`) -/

/-- Pass 1 of `render_flow` (`src/lib.rs` lines 558-574): repeatedly split
the tree, counting one page per iteration, until a Fit or Push.  The source
loop has no bound; the model takes explicit fuel and returns `none` when
the loop has not terminated within `fuel` iterations. -/
def countPassAux (font : FontM) (w h : ℚ) : ℕ → LayoutNodeM → ℕ → Option ℕ
  | 0, _, _ => none
  | fuel + 1, node, pageCount =>
    match splitNode node w h font with
    | .Fit => some (pageCount + 1)
    | .Push => some (pageCount + 1)
    | .Split _ tail => countPassAux font w h fuel tail (pageCount + 1)

/-- Pass 2 of `render_flow` (`src/lib.rs` lines 576-622): the same split
iteration, rendering one page per iteration with context
`(current page, total)`.  The model records, for each page, the body
segment rendered on it and the page context used for the header, footer
and body of that page. -/
def renderPassAux (font : FontM) (w h : ℚ) (total : ℕ) :
    ℕ → LayoutNodeM → ℕ → Option (List (LayoutNodeM × PageContextM))
  | 0, _, _ => none
  | fuel + 1, node, current =>
    let ctx : PageContextM := ⟨current, total⟩
    match splitNode node w h font with
    | .Fit => some [(node, ctx)]
    | .Push => some [(node, ctx)]
    | .Split head tail =>
      match renderPassAux font w h total fuel tail (current + 1) with
      | some pages => some ((head, ctx) :: pages)
      | none => none

/-- The measured height of an optional header or footer under the loose
width constraint (`src/lib.rs` lines 541-547). -/
def reservedNodeHeight (font : FontM) (width : ℚ) : Option LayoutNodeM → ℚ
  | some hn => (measureNode hn (.loose (some width) none) font).height
  | none => 0

/-- `Document::render_flow` (`src/lib.rs` lines 522-624): measure the
header and footer under the loose width constraint, reserve the margins and
their heights, fix 50-unit side margins, then run the count pass followed
by the render pass (pages numbered from 1, total from the count pass). -/
def renderFlowM (font : FontM) (width height : ℚ) (header footer : Option LayoutNodeM)
    (marginTop marginBottom : ℚ) (fuel : ℕ) (node : LayoutNodeM) :
    Option (ℕ × List (LayoutNodeM × PageContextM)) :=
  let headerHeight := reservedNodeHeight font width header
  let footerHeight := reservedNodeHeight font width footer
  let bodyAvailableHeight := height - (marginTop + headerHeight) - (marginBottom + footerHeight)
  let contentWidth := width - 2 * 50
  match countPassAux font contentWidth bodyAvailableHeight fuel node 0 with
  | none => none
  | some total =>
    match renderPassAux font contentWidth bodyAvailableHeight total fuel node 1 with
    | some pages => some (total, pages)
    | none => none


/-! ## Images (`core/image.rs`) and the document orchestrator
(`core/document.rs`, napi wrapper in `src/lib.rs`) -/

/-- `Image` (`core/image.rs` lines 5-13). -/
structure ImageM where
  width : ℕ
  height : ℕ
  colorSpace : Str
  bitsPerComponent : ℕ
  data : Str
  filter : Option Str
deriving DecidableEq

/-- The external collaborators the spec puts out of scope: the zlib
compressor (`flate2`) and the TrueType subsetter (`subsetter`, including
its fall-back-to-full-font behavior on failure). -/
structure ExternalFns where
  compress : Str → Str
  subset : FontM → List ℕ → Str

/-- `embed_image` (`core/document.rs` lines 531-569): one stream XObject;
a `FlateDecode` or absent filter compresses the raw samples, any other
filter (JPEG's `DCTDecode`) passes the data through unchanged. -/
def embedImage (ext : ExternalFns) (writer : PdfWriterM) (image : ImageM)
    (objectId : ℕ) : PdfWriterM :=
  let p : Str × Option Str :=
    match image.filter with
    | some f =>
      if f = "FlateDecode".data then (ext.compress image.data, some "FlateDecode".data)
      else (image.data, some f)
    | none => (ext.compress image.data, some "FlateDecode".data)
  let dict : List (Str × PdfObject) :=
    [("Type".data, .name "XObject".data),
     ("Subtype".data, .name "Image".data),
     ("Width".data, .integer image.width),
     ("Height".data, .integer image.height),
     ("ColorSpace".data, .name image.colorSpace),
     ("BitsPerComponent".data, .integer image.bitsPerComponent)]
    ++ (match p.2 with
        | some f => [("Filter".data, .name f)]
        | none => [])
  writer.writeObject objectId (.stream dict p.1)

/-- The scaled `W`-array width of one glyph (`core/document.rs` lines
463-466): the raw `hmtx` advance scaled by `1000 / units_per_em` and
truncated to an integer (`f32` arithmetic in the source, exact here). -/
def pdfGlyphWidth (font : FontM) (gid : ℕ) : ℤ :=
  ((font.getGlyphWidth gid * 1000) / font.unitsPerEm : ℕ)

/-- The `W` array of the CIDFontType2 object (`core/document.rs` lines
437-496).  With a used-glyph set: one `gid [width]` pair per used glyph in
ascending gid order.  Without one (streaming mode): a single block
`[ 0 [ w0 ... w_N-1 ] ]` covering every glyph of the face. -/
def buildWArray (font : FontM) (usedGids : Option (Finset ℕ)) : PdfObject :=
  match usedGids with
  | some gids =>
    .array ((gids.sort (· ≤ ·)).flatMap fun gid =>
      [.integer gid, .array [.integer (pdfGlyphWidth font gid)]])
  | none =>
    .array [.integer 0,
      .array ((List.range font.numberOfGlyphs).map fun gid =>
        .integer (pdfGlyphWidth font gid))]

/-- The CIDFontType2 dictionary (`core/document.rs` lines 499-512). -/
def cidFontDict (font : FontM) (usedGids : Option (Finset ℕ)) (descriptorId : ℕ) :
    PdfObject :=
  .dictionary
    [("Type".data, .name "Font".data),
     ("Subtype".data, .name "CIDFontType2".data),
     ("BaseFont".data, .name font.name),
     ("CIDSystemInfo".data, .dictionary
       [("Registry".data, .string "Adobe".data),
        ("Ordering".data, .string "Identity".data),
        ("Supplement".data, .integer 0)]),
     ("FontDescriptor".data, .reference descriptorId),
     ("CIDToGIDMap".data, .name "Identity".data),
     ("DW".data, .integer 1000),
     ("W".data, buildWArray font usedGids)]

/-- `embed_custom_font` (`core/document.rs` lines 396-528): the 4-object
bundle (FontFile2 stream of the possibly subsetted face, FontDescriptor,
CIDFontType2 with the `W` array, Type0).  Returns the new writer and the
Type0 object id.  `subset_font` (lines 381-393) sorts the used gids and
calls the external subsetter. -/
def embedCustomFont (ext : ExternalFns) (writer : PdfWriterM) (font : FontM)
    (baseId : ℕ) (usedGids : Option (Finset ℕ)) : PdfWriterM × ℕ :=
  let fontFileId := baseId
  let fontDescriptorId := baseId + 1
  let cidFontId := baseId + 2
  let type0FontId := baseId + 3
  let fontData :=
    match usedGids with
    | some gids => ext.subset font (gids.sort (· ≤ ·))
    | none => font.faceData
  let w1 := writer.writeObject fontFileId
    (.stream [("Length1".data, .integer fontData.length)] fontData)
  let bbox := font.bbox
  let w2 := w1.writeObject fontDescriptorId
    (.dictionary
      [("Type".data, .name "FontDescriptor".data),
       ("FontName".data, .name font.name),
       ("Flags".data, .integer 4),
       ("FontBBox".data, .array
         [.integer bbox.1, .integer bbox.2.1, .integer bbox.2.2.1, .integer bbox.2.2.2]),
       ("ItalicAngle".data, .real font.italicAngle),
       ("Ascent".data, .integer font.ascent),
       ("Descent".data, .integer font.descent),
       ("CapHeight".data, .integer font.capHeight),
       ("StemV".data, .integer 80),
       ("FontFile2".data, .reference fontFileId)])
  let w3 := w2.writeObject cidFontId (cidFontDict font usedGids fontDescriptorId)
  let w4 := w3.writeObject type0FontId
    (.dictionary
      [("Type".data, .name "Font".data),
       ("Subtype".data, .name "Type0".data),
       ("BaseFont".data, .name font.name),
       ("Encoding".data, .name "Identity-H".data),
       ("DescendantFonts".data, .array [.reference cidFontId])])
  (w4, type0FontId)

/-- `DocumentMode` (`core/document.rs` lines 11-25). -/
inductive DocumentModeM where
  | Buffered (pages : List PageM)
  | Streaming (writer : PdfWriterM) (pageIds : List ℕ) (nextObjectId : ℕ)
      (catalogId : ℕ) (pagesId : ℕ) (fontId : ℕ)
      (customFontIds : List ℕ) (imageIds : List ℕ)

/-- `Document` (`core/document.rs` lines 28-33). -/
structure DocumentM where
  mode : DocumentModeM
  fonts : List FontM
  fontsEmbedded : Bool
  images : List ImageM

/-- The Catalog dictionary. -/
def catalogDict (pagesId : ℕ) : PdfObject :=
  .dictionary
    [("Type".data, .name "Catalog".data), ("Pages".data, .reference pagesId)]

/-- The built-in Helvetica Type 1 font dictionary. -/
def helveticaDict : PdfObject :=
  .dictionary
    [("Type".data, .name "Font".data), ("Subtype".data, .name "Type1".data),
     ("BaseFont".data, .name "Helvetica".data)]

/-- The Pages tree dictionary with the kid references in page order. -/
def pagesDict (pageIds : List ℕ) : PdfObject :=
  .dictionary
    [("Type".data, .name "Pages".data),
     ("Kids".data, .array (pageIds.map fun pid => .reference pid)),
     ("Count".data, .integer pageIds.length)]

/-- The `/Font` resource dictionary entries: `/F1` the built-in font,
`/F{i+2}` the i-th registered Type0. -/
def fontResourcesList (fontId : ℕ) (type0Ids : List ℕ) : List (Str × PdfObject) :=
  ("F1".data, PdfObject.reference fontId)
    :: type0Ids.enum.map fun p => ('F' :: natChars (p.1 + 2), PdfObject.reference p.2)

/-- The `/XObject` resource entries for the images used on a page (the
Rust `HashSet` iteration is modelled in ascending index order); indices
with no registered object id are skipped. -/
def xobjectResourcesList (imageIds : List ℕ) (used : Finset ℕ) :
    List (Str × PdfObject) :=
  (used.sort (· ≤ ·)).filterMap fun idx =>
    (imageIds.get? idx).map fun oid => ("Im".data ++ natChars idx, PdfObject.reference oid)

/-- The page `/Resources` dictionary: fonts, and XObjects only when any
image is referenced. -/
def resourcesDictList (fontRes xobjRes : List (Str × PdfObject)) :
    List (Str × PdfObject) :=
  [("Font".data, PdfObject.dictionary fontRes)]
    ++ (if xobjRes.isEmpty then [] else [("XObject".data, PdfObject.dictionary xobjRes)])

/-- A page dictionary (`core/document.rs` lines 184-195 and 357-368). -/
def pageDict (page : PageM) (pagesId contentId : ℕ)
    (resources : List (Str × PdfObject)) : PdfObject :=
  .dictionary
    [("Type".data, .name "Page".data),
     ("Parent".data, .reference pagesId),
     ("MediaBox".data, .array
       [.integer 0, .integer 0, .real page.width, .real page.height]),
     ("Resources".data, .dictionary resources),
     ("Contents".data, .reference contentId)]

namespace DocumentM

/-- `Document::new`: buffered mode. -/
def new : DocumentM :=
  { mode := .Buffered [], fonts := [], fontsEmbedded := false, images := [] }

/-- `Document::streaming` (`core/document.rs` lines 48-86): write the
Catalog (with a forward reference to Pages) and the built-in font
immediately. -/
def streaming : DocumentM :=
  let w1 := PdfWriterM.new.writeObject 1 (catalogDict 2)
  let w2 := w1.writeObject 3 helveticaDict
  { mode := .Streaming w2 [] 4 1 2 3 [] [], fonts := [], fontsEmbedded := false,
    images := [] }

/-- `Document::add_font`: register a font, return its index. -/
def addFont (d : DocumentM) (font : FontM) : DocumentM × ℕ :=
  ({ d with fonts := d.fonts ++ [font] }, d.fonts.length)

/-- `Document::add_image` (`core/document.rs` lines 97-119): buffered mode
registers the image; streaming mode writes the XObject immediately. -/
def addImage (ext : ExternalFns) (d : DocumentM) (image : ImageM) : DocumentM × ℕ :=
  match d.mode with
  | .Buffered _ => ({ d with images := d.images ++ [image] }, d.images.length)
  | .Streaming writer pageIds nextId catalogId pagesId fontId customFontIds imageIds =>
    let w' := embedImage ext writer image nextId
    ({ d with mode := (.Streaming w' pageIds (nextId + 1) catalogId pagesId fontId
        customFontIds (imageIds ++ [nextId])) }, imageIds.length)

end DocumentM

/-- The lazy font embedding of the first streaming `add_page`
(`core/document.rs` lines 140-148): embed every registered font, full and
unsubsetted, 4 object ids each. -/
def streamEmbedFonts (ext : ExternalFns) :
    PdfWriterM → List FontM → List ℕ → ℕ → PdfWriterM × List ℕ × ℕ
  | w, [], ids, nextId => (w, ids, nextId)
  | w, font :: rest, ids, nextId =>
    let r := embedCustomFont ext w font nextId none
    streamEmbedFonts ext r.1 rest (ids ++ [r.2]) (nextId + 4)

/-- `Document::add_page` (`core/document.rs` lines 122-204).  Buffered mode
clones the page into the page list; streaming mode lazily embeds fonts
before the first page, then writes the content stream and the page object
immediately. -/
def DocumentM.addPage (ext : ExternalFns) (d : DocumentM) (page : PageM) : DocumentM :=
  match d.mode with
  | .Buffered pages => { d with mode := .Buffered (pages ++ [page]) }
  | .Streaming writer pageIds nextId catalogId pagesId fontId customFontIds imageIds =>
    let e :=
      if !d.fontsEmbedded && !d.fonts.isEmpty then
        (streamEmbedFonts ext writer d.fonts customFontIds nextId, true)
      else ((writer, customFontIds, nextId), d.fontsEmbedded)
    let writer1 := e.1.1
    let customFontIds1 := e.1.2.1
    let nextId1 := e.1.2.2
    let contentId := nextId1
    let w1 := writer1.writeObject contentId (.stream [] page.content)
    let fontRes := fontResourcesList fontId customFontIds1
    let xobjRes := xobjectResourcesList imageIds page.usedImages
    let pageId := contentId + 1
    let w2 := w1.writeObject pageId
      (pageDict page pagesId contentId (resourcesDictList fontRes xobjRes))
    { d with
      fontsEmbedded := e.2
      mode := (.Streaming w2 (pageIds ++ [pageId]) (contentId + 2) catalogId pagesId
        fontId customFontIds1 imageIds) }

/-- The per-key view of the glyph-usage aggregation of `Document::write_to`
(`core/document.rs` lines 303-312): walk the pages in order, and for each
page holding a set for font index `i`, union it in (creating the entry on
first sight). -/
def fontGlyphUsage (pages : List PageM) (i : ℕ) : Option (Finset ℕ) :=
  pages.foldl
    (fun acc p =>
      match p.usedGlyphs i with
      | none => acc
      | some s => some (acc.getD ∅ ∪ s))
    none

/-- The font embedding loop of `Document::write_to` (`core/document.rs`
lines 314-320): the i-th font occupies object ids `4 + 4i ..`, subsetted by
the aggregated usage for index i. -/
def embedFontsBuffered (ext : ExternalFns) (pages : List PageM) :
    PdfWriterM → List FontM → ℕ → PdfWriterM
  | w, [], _ => w
  | w, font :: rest, i =>
    let w' := (embedCustomFont ext w font (4 + 4 * i) (fontGlyphUsage pages i)).1
    embedFontsBuffered ext pages w' rest (i + 1)

/-- The image embedding loop of `Document::write_to` (lines 322-325):
consecutive object ids starting at `firstId`. -/
def embedImagesBuffered (ext : ExternalFns) :
    PdfWriterM → List ImageM → ℕ → PdfWriterM
  | w, [], _ => w
  | w, image :: rest, objectId =>
    embedImagesBuffered ext (embedImage ext w image objectId) rest (objectId + 1)

/-- The page writing loop of `Document::write_to` (lines 336-370): for each
page a content stream at `contentId` and a page object at `contentId + 1`,
ids advancing by 2. -/
def writePagesBuffered (pagesId : ℕ) (fontRes : List (Str × PdfObject))
    (imageIds : List ℕ) : PdfWriterM → List PageM → ℕ → PdfWriterM
  | w, [], _ => w
  | w, page :: rest, contentId =>
    let w1 := w.writeObject contentId (.stream [] page.content)
    let xobjRes := xobjectResourcesList imageIds page.usedImages
    let w2 := w1.writeObject (contentId + 1)
      (pageDict page pagesId contentId (resourcesDictList fontRes xobjRes))
    writePagesBuffered pagesId fontRes imageIds w2 rest (contentId + 2)

/-- `Document::write_to` (`core/document.rs` lines 241-377).  Streaming
mode is a state error.  Buffered mode assigns ids deterministically
(Catalog 1, Pages 2, Helvetica 3, 4 ids per custom font, then one per
image, then a content/page pair per page), writes everything and closes
with the xref and trailer.  Returns the final writer. -/
def DocumentM.writeTo (ext : ExternalFns) (d : DocumentM) : Except Str PdfWriterM :=
  match d.mode with
  | .Streaming _ _ _ _ _ _ _ _ =>
    .error "write_to() is only for buffered mode. Use finalize() for streaming mode.".data
  | .Buffered pages =>
    let catalogId := 1
    let pagesId := 2
    let fontId := 3
    let firstImageId := 4 + 4 * d.fonts.length
    let firstPageObjId := firstImageId + d.images.length
    let pageIds := (List.range pages.length).map fun i => firstPageObjId + 2 * i + 1
    let type0Ids := (List.range d.fonts.length).map fun i => 4 + 4 * i + 3
    let w1 := PdfWriterM.new.writeObject catalogId (catalogDict pagesId)
    let w2 := w1.writeObject pagesId (pagesDict pageIds)
    let w3 := w2.writeObject fontId helveticaDict
    let w4 := embedFontsBuffered ext pages w3 d.fonts 0
    let w5 := embedImagesBuffered ext w4 d.images firstImageId
    let fontRes := fontResourcesList fontId type0Ids
    let imageIds := (List.range d.images.length).map fun i => firstImageId + i
    let w6 := writePagesBuffered pagesId fontRes imageIds w5 pages firstPageObjId
    .ok (w6.writeXrefAndTrailer catalogId)

/-- `Document::finalize` (`core/document.rs` lines 208-238).  Buffered mode
is a state error, returned with the document untouched.  Streaming mode
writes the Pages object with the accumulated kids, then the xref and
trailer. -/
def DocumentM.finalize (d : DocumentM) : Except Str PdfWriterM × DocumentM :=
  match d.mode with
  | .Buffered _ =>
    (.error "finalize() is only for streaming mode. Use write_to() for buffered mode.".data,
     d)
  | .Streaming writer pageIds nextId catalogId pagesId fontId customFontIds imageIds =>
    let w1 := writer.writeObject pagesId (pagesDict pageIds)
    let w2 := w1.writeXrefAndTrailer catalogId
    (.ok w2,
     { d with mode := (.Streaming w2 pageIds nextId catalogId pagesId fontId
        customFontIds imageIds) })

/-- The napi `Document` wrapper (`src/lib.rs` lines 430-503): it holds
`inner : Option<CoreDocument>`.  `finalize` takes the inner document out
(consuming it), `write_to` only borrows it. -/
def napiFinalize (d : Option DocumentM) : Except Str Unit × Option DocumentM :=
  match d with
  | some doc => ((doc.finalize.1).map fun _ => (), none)
  | none => (.error "Document is already finalized".data, none)

/-- `Document::write_to` of the napi wrapper (`src/lib.rs` lines 496-503):
borrows the inner document, leaving the wrapper state unchanged. -/
def napiWriteTo (ext : ExternalFns) (d : Option DocumentM) : Except Str PdfWriterM :=
  match d with
  | some doc => doc.writeTo ext
  | none => .error "Document is finalized".data


/-! ## Concrete fixtures for witnesses and counterexamples -/

/-- A monospaced test face: one glyph, advance 1000 at 1000 units per em,
so every character measures exactly the font size. -/
def monoFont : FontM :=
  { glyphWidths := [1000], unitsPerEm := 1000, name := "Mono".data,
    faceData := "MONO".data, charGid := fun _ => 0, ascender := 800, descender := -200,
    capitalHeight := none, italicAngle := 0, bboxXMin := 0, bboxYMin := -200,
    bboxXMax := 1000, bboxYMax := 800 }

/-- A two-glyph test face mapping the letter A to glyph 1 and everything
else to glyph 0. -/
def abFont : FontM :=
  { glyphWidths := [500, 600], unitsPerEm := 1000, name := "TestFont".data,
    faceData := "FACE".data, charGid := fun c => if c = 'A' then 1 else 0,
    ascender := 800, descender := -200, capitalHeight := none, italicAngle := 0,
    bboxXMin := 0, bboxYMin := -200, bboxXMax := 1000, bboxYMax := 800 }

/-- Trivial external collaborators: identity compression, subsetting that
returns the full face. -/
def idExt : ExternalFns :=
  { compress := fun s => s, subset := fun f _ => f.faceData }


/-- A JPEG-like test image (passthrough filter). -/
def imgJpeg : ImageM :=
  { width := 2, height := 3, colorSpace := "DeviceRGB".data, bitsPerComponent := 8,
    data := "JPEGDATA".data, filter := some "DCTDecode".data }

/-- A PNG-like test image (raw samples to be Flate-compressed). -/
def imgPng : ImageM :=
  { width := 1, height := 1, colorSpace := "DeviceRGB".data, bitsPerComponent := 8,
    data := "RGB".data, filter := some "FlateDecode".data }

/-- The borrow-semantics view of the napi `write_to` (`src/lib.rs` line
497 takes `&self`): the call returns a result and leaves the wrapper state
unchanged. -/
def napiWriteToSt (ext : ExternalFns) (d : Option DocumentM) :
    Except Str PdfWriterM × Option DocumentM :=
  (napiWriteTo ext d, d)


/-- A buffered document holding one registered font and no pages (so the
font is never referenced by any page). -/
def docNoUse : DocumentM :=
  { mode := .Buffered [], fonts := [abFont], fontsEmbedded := false, images := [] }


/-- A page referencing glyph 1 of `abFont` (custom font index 0). -/
def pageA : PageM := (PageM.new 595 842).textWithFont ['A'] 50 700 12 0 abFont

/-- A buffered document with one font used on its one page. -/
def docUseA : DocumentM :=
  { mode := .Buffered [pageA], fonts := [abFont], fontsEmbedded := false, images := [] }

/-! # Theorems -/

theorem headMatches_single (c : Char) (x : Char) (rest : Str) :
    headMatches [c] (x :: rest) = (c == x) := by
  simp [headMatches]

/-- A single-character `replace` pass is a per-character substitution. -/
theorem replaceAll_single (c : Char) (rep : Str) :
    ∀ s : Str, replaceAll [c] rep s = s.flatMap fun x => if x = c then rep else [x] := by
  intro s
  induction s with
  | nil => simp [replaceAll]
  | cons x rest ih =>
    rw [replaceAll]
    by_cases h : c = x
    · subst h
      rw [dif_pos ⟨by simp, by simp [headMatches]⟩]
      simp only [List.length_cons, List.length_nil, List.drop_succ_cons, List.drop_nil,
        List.drop_zero, List.flatMap_cons, if_pos rfl]
      rw [ih]
      simp
    · rw [dif_neg (by simp [headMatches, h])]
      rw [ih]
      simp [List.flatMap_cons, Ne.symm h]

/-- The three sequential passes of `escape_string` equal the one-pass
per-character substitution `escapeChar`. -/
theorem escape_string_eq_flatMap (s : Str) : escape_string s = s.flatMap escapeChar := by
  unfold escape_string
  rw [replaceAll_single, replaceAll_single, replaceAll_single,
    List.flatMap_assoc, List.flatMap_assoc]
  have hchar : ∀ c : Char,
      ((if c = '\\' then ['\\', '\\'] else [c]).flatMap fun x =>
          (if x = '(' then ['\\', '('] else [x]).flatMap fun y =>
            if y = ')' then ['\\', ')'] else [y]) = escapeChar c := by
    intro c
    by_cases h1 : c = '\\'
    · subst h1; rfl
    · by_cases h2 : c = '('
      · subst h2; rfl
      · by_cases h3 : c = ')'
        · subst h3; rfl
        · simp [escapeChar, h1, h2, h3]
  simp only [hchar]

theorem escapeChar_ne_nil (c : Char) : escapeChar c ≠ [] := by
  unfold escapeChar
  by_cases h1 : c = '\\' <;> by_cases h2 : c = '(' <;> by_cases h3 : c = ')' <;> simp [h1, h2, h3]

/-- For the three escaped characters, the code word is backslash followed by
the character itself; for all others it is the character alone. -/
theorem escapeChar_eq (c : Char) :
    (¬(c = '\\' ∨ c = '(' ∨ c = ')') → escapeChar c = [c]) ∧
    ((c = '\\' ∨ c = '(' ∨ c = ')') → escapeChar c = ['\\', c]) := by
  constructor
  · intro h
    simp only [not_or] at h
    simp [escapeChar, h.1, h.2.1, h.2.2]
  · rintro (h | h | h) <;> subst h <;> rfl

/-- Prefix-code property: equal streams starting with code words have equal
leading characters and equal remainders. -/
theorem escapeChar_head (c d : Char) (r1 r2 : Str)
    (h : escapeChar c ++ r1 = escapeChar d ++ r2) : c = d ∧ r1 = r2 := by
  by_cases hc : c = '\\' ∨ c = '(' ∨ c = ')'
  · rw [(escapeChar_eq c).2 hc] at h
    by_cases hd : d = '\\' ∨ d = '(' ∨ d = ')'
    · rw [(escapeChar_eq d).2 hd] at h
      simpa using h
    · rw [(escapeChar_eq d).1 hd] at h
      -- the left stream starts with a backslash, the right one cannot
      have hd' : d ≠ '\\' := fun h' => hd (Or.inl h')
      simp only [List.cons_append, List.cons.injEq] at h
      exact absurd h.1.symm hd'
  · rw [(escapeChar_eq c).1 hc] at h
    by_cases hd : d = '\\' ∨ d = '(' ∨ d = ')'
    · rw [(escapeChar_eq d).2 hd] at h
      have hc' : c ≠ '\\' := fun h' => hc (Or.inl h')
      simp only [List.cons_append, List.cons.injEq] at h
      exact absurd h.1 hc'
    · rw [(escapeChar_eq d).1 hd] at h
      simpa using h

theorem flatMap_escapeChar_inj : ∀ s t : Str, s.flatMap escapeChar = t.flatMap escapeChar → s = t
  | [], [], _ => rfl
  | [], d :: t, h => by
    exfalso
    simp only [List.flatMap_nil, List.flatMap_cons] at h
    exact escapeChar_ne_nil d (List.append_eq_nil.mp h.symm).1
  | c :: s, [], h => by
    exfalso
    simp only [List.flatMap_nil, List.flatMap_cons] at h
    exact escapeChar_ne_nil c (List.append_eq_nil.mp h).1
  | c :: s, d :: t, h => by
    simp only [List.flatMap_cons] at h
    obtain ⟨h1, h2⟩ := escapeChar_head c d _ _ h
    rw [h1, flatMap_escapeChar_inj s t h2]

/-- C10 — Escape round-trip: `escape_string` replaces a backslash by a
double backslash and each parenthesis by a backslash-prefixed parenthesis,
and the escaping is injective, so equal escaped outputs come from equal
inputs and un-escaping recovers the original string. -/
theorem escape_string_injective (s t : Str) (h : escape_string s = escape_string t) : s = t := by
  rw [escape_string_eq_flatMap, escape_string_eq_flatMap] at h
  exact flatMap_escapeChar_inj s t h

/-- Witness for C10 at a concrete input. -/
theorem escape_string_injective_witness : (['a', '(', '\\'] : Str) = ['a', '(', '\\'] :=
  escape_string_injective ['a', '(', '\\'] ['a', '(', '\\'] rfl


/-- Folding `write_object` over a list of (id, object) pairs, starting from
a writer whose tracked offset equals its stream length: the byte stream
grows by the object chunks in order, the offset stays equal to the stream
length, one xref entry per object is recorded in write order, and the
object log records exactly the written pairs. -/
theorem foldl_writeObject_spec (ws : List (ℕ × PdfObject)) :
    ∀ w0 : PdfWriterM, w0.offset = w0.data.length →
      (ws.foldl (fun w p => w.writeObject p.1 p.2) w0).data
          = w0.data ++ (ws.map objChunk).flatten
        ∧ (ws.foldl (fun w p => w.writeObject p.1 p.2) w0).offset
          = (w0.data ++ (ws.map objChunk).flatten).length
        ∧ (ws.foldl (fun w p => w.writeObject p.1 p.2) w0).xref.map Prod.fst
          = w0.xref.map Prod.fst ++ ws.map Prod.fst
        ∧ (ws.foldl (fun w p => w.writeObject p.1 p.2) w0).xref.length
          = w0.xref.length + ws.length
        ∧ (ws.foldl (fun w p => w.writeObject p.1 p.2) w0).objects
          = w0.objects ++ ws := by
  induction ws with
  | nil => intro w0 h; simp [h]
  | cons p ps ih =>
    intro w0 h
    obtain ⟨d, o, x, xl, ob⟩ := ih (w0.writeObject p.1 p.2) rfl
    have hd : (w0.writeObject p.1 p.2).data = w0.data ++ objChunk p := rfl
    have hx : (w0.writeObject p.1 p.2).xref = w0.xref ++ [(p.1, w0.offset)] := rfl
    have hob : (w0.writeObject p.1 p.2).objects = w0.objects ++ [p] := rfl
    have hfold : (p :: ps).foldl (fun w q => w.writeObject q.1 q.2) w0
        = ps.foldl (fun w q => w.writeObject q.1 q.2) (w0.writeObject p.1 p.2) := rfl
    refine ⟨?_, ?_, ?_, ?_, ?_⟩
    · rw [hfold, d, hd]; simp [List.append_assoc]
    · rw [hfold, o, hd]; simp [List.append_assoc]
    · rw [hfold, x, hx]; simp
    · rw [hfold, xl, hx]; simp; omega
    · rw [hfold, ob, hob]; simp

/-- C5 — File framing and xref layout: every produced byte stream begins
with the version line and a binary comment of a percent byte and four bytes
at or above 0x80; after any sequence of object writes,
`write_xref_and_trailer` appends the xref keyword, the subsection header
`0 N+1` for the `N` recorded entries, entry 0 with generation 65535 and the
`f` flag, one line per recorded entry (10-digit zero padded offset,
generation 00000, flag `n`, trailing space) in order of ascending id, the
trailer dictionary with `/Size N+1` and the root reference, `startxref`,
the byte offset at which the xref section starts, and `%%EOF` with a
trailing newline (in particular the byte before `startxref` is a
newline). -/
theorem writer_framing_and_xref (ws : List (ℕ × PdfObject)) (rootId : ℕ) :
    (((ws.foldl (fun w p => w.writeObject p.1 p.2) PdfWriterM.new).writeXrefAndTrailer
        rootId).data
        = headerBytes ++ (ws.map objChunk).flatten
          ++ ("xref\n0 ".data ++ natChars (ws.length + 1) ++ "\n".data
            ++ "0000000000 65535 f \n".data
            ++ (((ws.foldl (fun w p => w.writeObject p.1 p.2) PdfWriterM.new).xref.mergeSort
                  (fun a b => a.1 ≤ b.1)).map fun e => PdfWriterM.xrefEntryLine e.2).flatten
            ++ "trailer\n<< /Size ".data ++ natChars (ws.length + 1)
            ++ " /Root ".data ++ natChars rootId ++ " 0 R >>".data
            ++ "\nstartxref\n".data
            ++ natChars (headerBytes ++ (ws.map objChunk).flatten).length ++ "\n".data
            ++ "%%EOF\n".data))
      ∧ headerBytes
          = "%PDF-1.7\n".data
            ++ '%' :: ([Char.ofNat 0x93, Char.ofNat 0x8C, Char.ofNat 0x8B, Char.ofNat 0x9E]
            ++ ['\n'])
      ∧ (∀ b ∈ [Char.ofNat 0x93, Char.ofNat 0x8C, Char.ofNat 0x8B, Char.ofNat 0x9E],
          0x80 ≤ b.toNat)
      ∧ (ws.foldl (fun w p => w.writeObject p.1 p.2) PdfWriterM.new).xref.map Prod.fst
          = ws.map Prod.fst
      ∧ (ws.foldl (fun w p => w.writeObject p.1 p.2) PdfWriterM.new).xref.length
          = ws.length := by
  obtain ⟨d, o, x, xl, -⟩ := foldl_writeObject_spec ws PdfWriterM.new rfl
  refine ⟨?_, by decide, by decide, ?_, ?_⟩
  · simp only [PdfWriterM.writeXrefAndTrailer, d, o, xl]
    simp [PdfWriterM.new, List.append_assoc]
  · simpa [PdfWriterM.new] using x
  · simpa [PdfWriterM.new] using xl


/-! ### C6 — custom-text emission -/

/-- C6 counterexample: at a concrete call, the bytes appended by
`text_with_font` are `q 0 g BT /F2 12 Tf 50 700 Td <0001> Tj ET Q ` — the
source inserts the tokens `0 g` (black fill) between `q` and `BT`, so the
claimed token sequence `q BT ... Q` is not what is emitted. -/
theorem textWithFont_claim_counterexample :
    ((PageM.new 595 842).textWithFont ['A'] 50 700 12 0 abFont).content
        = "q 0 g BT /F2 12 Tf 50 700 Td <0001> Tj ET Q ".data
      ∧ ((PageM.new 595 842).textWithFont ['A'] 50 700 12 0 abFont).content
        ≠ "q BT /F2 12 Tf 50 700 Td <0001> Tj ET Q ".data := by
  exact ⟨by decide, by decide⟩

/-- C6 (amended) — Custom-text emission: `page.text_with_font(text, x, y,
size, n, font)` appends exactly the token sequence
`q 0 g BT /F{n+2} {size} Tf {x} {y} Td <hex> Tj ET Q` followed by a space,
where `hex` holds 4 lowercase hex digits per shaped glyph (most significant
byte first) between angle brackets; prior page content is preserved
unchanged; every shaped glyph id is added to `used_glyphs[n]` (other
entries and the page dimensions are untouched). -/
theorem textWithFont_emission (p : PageM) (t : Str) (x y size : ℚ) (n : ℕ) (font : FontM) :
    ((p.textWithFont t x y size n font).content
      = p.content
        ++ ("q 0 g BT /".data ++ 'F' :: natChars (n + 2) ++ ' ' :: fmtNum size
          ++ ' ' :: "Tf ".data ++ fmtNum x ++ ' ' :: fmtNum y ++ " Td ".data
          ++ '<' :: (((font.shapeText t size).map fun g => toHex4 g.glyphId).flatten ++ ['>'])
          ++ " Tj ET Q ".data))
    ∧ (∀ m, (p.textWithFont t x y size n font).usedGlyphs m
        = if m = n then
            some ((p.usedGlyphs n).getD ∅
              ∪ ((font.shapeText t size).map fun g => g.glyphId).toFinset)
          else p.usedGlyphs m)
    ∧ (p.textWithFont t x y size n font).width = p.width
    ∧ (p.textWithFont t x y size n font).height = p.height
    ∧ (p.textWithFont t x y size n font).usedImages = p.usedImages :=
  ⟨rfl, fun _ => rfl, rfl, rfl, rfl⟩

/-! ### C9 — image embedding -/

/-- C9 — Image embedding: `embed_image` writes exactly one stream XObject
whose dictionary carries Type, Subtype, Width, Height, ColorSpace and
BitsPerComponent; a `DCTDecode` image keeps its data byte-for-byte with
`/Filter /DCTDecode`, a `FlateDecode` or filterless image stores the zlib
compression of its raw samples with `/Filter /FlateDecode`; the stream
serialization carries `/Length` equal to the body length. -/
theorem embedImage_spec (ext : ExternalFns) (w : PdfWriterM) (image : ImageM)
    (objectId : ℕ) :
    (image.filter = some "DCTDecode".data →
      (embedImage ext w image objectId).objects
        = w.objects ++ [(objectId, PdfObject.stream
            [("Type".data, .name "XObject".data),
             ("Subtype".data, .name "Image".data),
             ("Width".data, .integer image.width),
             ("Height".data, .integer image.height),
             ("ColorSpace".data, .name image.colorSpace),
             ("BitsPerComponent".data, .integer image.bitsPerComponent),
             ("Filter".data, .name "DCTDecode".data)]
            image.data)])
    ∧ ((image.filter = some "FlateDecode".data ∨ image.filter = none) →
      (embedImage ext w image objectId).objects
        = w.objects ++ [(objectId, PdfObject.stream
            [("Type".data, .name "XObject".data),
             ("Subtype".data, .name "Image".data),
             ("Width".data, .integer image.width),
             ("Height".data, .integer image.height),
             ("ColorSpace".data, .name image.colorSpace),
             ("BitsPerComponent".data, .integer image.bitsPerComponent),
             ("Filter".data, .name "FlateDecode".data)]
            (ext.compress image.data))])
    ∧ (∀ (dict : List (Str × PdfObject)) (content : Str),
        serialize (.stream dict content)
          = "<<".data ++ serializeEntries dict ++ " /Length ".data
            ++ natChars content.length ++ " >>\nstream\n".data ++ content
            ++ "\nendstream".data) := by
  refine ⟨?_, ?_, fun dict content => rfl⟩
  · intro h
    simp only [embedImage, h]
    rw [if_neg (by decide)]
    rfl
  · rintro (h | h)
    · simp only [embedImage, h]
      rfl
    · simp only [embedImage, h]
      rfl

/-- Witness for C9: the JPEG fixture passes through, the PNG fixture is
compressed. -/
theorem embedImage_spec_witness :
    ((embedImage idExt PdfWriterM.new imgJpeg 4).objects
        = PdfWriterM.new.objects ++ [(4, PdfObject.stream
            [("Type".data, .name "XObject".data),
             ("Subtype".data, .name "Image".data),
             ("Width".data, .integer imgJpeg.width),
             ("Height".data, .integer imgJpeg.height),
             ("ColorSpace".data, .name imgJpeg.colorSpace),
             ("BitsPerComponent".data, .integer imgJpeg.bitsPerComponent),
             ("Filter".data, .name "DCTDecode".data)]
            imgJpeg.data)])
    ∧ ((embedImage idExt PdfWriterM.new imgPng 4).objects
        = PdfWriterM.new.objects ++ [(4, PdfObject.stream
            [("Type".data, .name "XObject".data),
             ("Subtype".data, .name "Image".data),
             ("Width".data, .integer imgPng.width),
             ("Height".data, .integer imgPng.height),
             ("ColorSpace".data, .name imgPng.colorSpace),
             ("BitsPerComponent".data, .integer imgPng.bitsPerComponent),
             ("Filter".data, .name "FlateDecode".data)]
            (idExt.compress imgPng.data))]) :=
  ⟨(embedImage_spec idExt PdfWriterM.new imgJpeg 4).1 rfl,
   (embedImage_spec idExt PdfWriterM.new imgPng 4).2.1 (Or.inl rfl)⟩

/-! ### C8 — terminal-call state errors -/

/-- C8 (amended) — Terminal-call state errors: `write_to` on a streaming
document and `finalize` on a buffered document fail with a state error,
leaving the document unchanged; the napi wrapper takes the inner document
out on `finalize`, so a second `finalize` fails with a state error.
(`write_to` borrows the document and does not consume it — see the
counterexample theorem.) -/
theorem terminal_state_errors :
    (∀ (ext : ExternalFns) (d : DocumentM) (w : PdfWriterM) (pids : List ℕ)
        (nid cid pgid fid : ℕ) (cf ii : List ℕ),
        d.mode = .Streaming w pids nid cid pgid fid cf ii →
        d.writeTo ext
          = .error "write_to() is only for buffered mode. Use finalize() for streaming mode.".data)
    ∧ (∀ (d : DocumentM) (pages : List PageM), d.mode = .Buffered pages →
        d.finalize
          = (.error "finalize() is only for streaming mode. Use write_to() for buffered mode.".data,
             d))
    ∧ (∀ st : Option DocumentM,
        (napiFinalize (napiFinalize st).2).1 = .error "Document is already finalized".data) := by
  refine ⟨?_, ?_, ?_⟩
  · intro ext d w pids nid cid pgid fid cf ii h
    simp only [DocumentM.writeTo, h]
  · intro d pages h
    simp only [DocumentM.finalize, h]
  · intro st
    cases st <;> rfl

/-- Witness for C8 at concrete documents. -/
theorem terminal_state_errors_witness :
    DocumentM.streaming.writeTo idExt
        = .error "write_to() is only for buffered mode. Use finalize() for streaming mode.".data
    ∧ DocumentM.new.finalize
        = (.error "finalize() is only for streaming mode. Use write_to() for buffered mode.".data,
           DocumentM.new) :=
  ⟨terminal_state_errors.1 idExt DocumentM.streaming _ _ _ _ _ _ _ _ rfl,
   terminal_state_errors.2.1 DocumentM.new [] rfl⟩

/-- C8 counterexample: calling the (wrapper) `write_to` a second time on
the same buffered document succeeds — `write_to` borrows `&self` and the
wrapper keeps the inner document, so nothing is consumed and no state error
occurs, contradicting the claim that a second terminal call fails. -/
theorem writeTo_second_call_succeeds :
    ((napiWriteToSt idExt (some DocumentM.new)).1.toOption.isSome = true)
    ∧ ((napiWriteToSt idExt
          (napiWriteToSt idExt (some DocumentM.new)).2).1.toOption.isSome = true) := by
  exact ⟨rfl, rfl⟩

/-! ### C7 — table split -/

/-- When every prefix of row heights fits the data area, the row walk of
`TableNode::split` reports a complete fit. -/
theorem tableSplitLoop_fit (t : TableM) (font : FontM) (da : ℚ) :
    ∀ (rows : List (List Str)) (i : ℕ) (cur : ℚ),
      (∀ k < rows.length, cur + ((rows.map (rowHeight t font)).take (k + 1)).sum ≤ da) →
      tableSplitLoop t font da rows i cur = .fit := by
  intro rows
  induction rows with
  | nil => intro i cur _; simp [tableSplitLoop]
  | cons row rest ih =>
    intro i cur h
    have h0 : cur + rowHeight t font row ≤ da := by
      have := h 0 (by simp)
      simpa using this
    rw [tableSplitLoop, if_neg (not_lt.2 h0)]
    apply ih
    intro k hk
    have := h (k + 1) (by simpa using Nat.succ_lt_succ hk)
    simp only [List.map_cons, List.take_succ_cons, List.sum_cons] at this
    linarith

/-- When `j` is an index whose prefix of row heights overflows the data
area while all shorter prefixes fit, the row walk stops there: it pushes
if that is the very first row and splits at the index otherwise. -/
theorem tableSplitLoop_overflow (t : TableM) (font : FontM) (da : ℚ) :
    ∀ (j : ℕ) (rows : List (List Str)) (i : ℕ) (cur : ℚ),
      j < rows.length →
      (∀ k < j, cur + ((rows.map (rowHeight t font)).take (k + 1)).sum ≤ da) →
      da < cur + ((rows.map (rowHeight t font)).take (j + 1)).sum →
      tableSplitLoop t font da rows i cur
        = (if i + j = 0 then .push else .splitAt (i + j)) := by
  intro j
  induction j with
  | zero =>
    intro rows i cur hlen _ hover
    cases rows with
    | nil => simp at hlen
    | cons row rest =>
      simp only [List.map_cons, List.take_succ_cons, List.take_zero, List.sum_cons,
        List.sum_nil, add_zero] at hover
      rw [tableSplitLoop, if_pos hover]
      simp
  | succ j ih =>
    intro rows i cur hlen hmin hover
    cases rows with
    | nil => simp at hlen
    | cons row rest =>
      have h0 : cur + rowHeight t font row ≤ da := by
        have := hmin 0 (Nat.succ_pos j)
        simpa using this
      rw [tableSplitLoop, if_neg (not_lt.2 h0)]
      rw [ih rest (i + 1) (cur + rowHeight t font row) (by simpa using hlen)
        (fun k hk => by
          have := hmin (k + 1) (Nat.succ_lt_succ hk)
          simp only [List.map_cons, List.take_succ_cons, List.sum_cons] at this
          linarith)
        (by
          simp only [List.map_cons, List.take_succ_cons, List.sum_cons] at hover
          linarith)]
      have h1 : i + 1 + j ≠ 0 := by omega
      have h2 : i + (j + 1) ≠ 0 := by omega
      rw [if_neg h1, if_neg h2]
      congr 1
      omega

/-- C7 counterexample: a table with no rows, split with `avail_h` equal to
the header height, returns Push, although every row (vacuously) fits — the
claim predicts Fit whenever all rows fit. -/
theorem tableSplit_claim_counterexample :
    splitNode (.table ⟨[], [], TableSettingsM.default⟩) 400 30 monoFont = .Push
    ∧ (⟨[], [], TableSettingsM.default⟩ : TableM).rows = [] := by
  constructor
  · simp [splitNode, TableSettingsM.default]
  · rfl

/-- C7 (amended) — Table split: `TableNode::split` first reserves
`settings.header_height`; if the remaining data area is not positive it
returns Push regardless of the rows.  Otherwise, with per-row heights
`max_lines_over_cells * (font_size * 1.2) + 2*padding + 8`: if every
prefix of row heights fits the data area the result is Fit; if the first
overflowing prefix ends at row 0 the result is Push; and if it ends at a
later row `i` the result is Split with head rows `[0..i)` and tail rows
`[i..)`, both keeping the original columns and settings. -/
theorem tableNode_split_spec (t : TableM) (font : FontM) (availW availH : ℚ) :
    (availH - t.settings.headerHeight ≤ 0 →
      splitNode (.table t) availW availH font = .Push)
    ∧ (0 < availH - t.settings.headerHeight →
      ((∀ k < t.rows.length,
          ((t.rows.map (rowHeight t font)).take (k + 1)).sum
            ≤ availH - t.settings.headerHeight) →
        splitNode (.table t) availW availH font = .Fit)
      ∧ (∀ i < t.rows.length,
          (∀ k < i, ((t.rows.map (rowHeight t font)).take (k + 1)).sum
            ≤ availH - t.settings.headerHeight) →
          availH - t.settings.headerHeight
            < ((t.rows.map (rowHeight t font)).take (i + 1)).sum →
          (i = 0 → splitNode (.table t) availW availH font = .Push)
          ∧ (0 < i → splitNode (.table t) availW availH font
              = .Split (.table { t with rows := t.rows.take i })
                  (.table { t with rows := t.rows.drop i })))) := by
  constructor
  · intro h
    rw [splitNode, if_pos h]
  · intro hpos
    have hneg := not_le.2 hpos
    constructor
    · intro hfit
      rw [splitNode, if_neg hneg,
        tableSplitLoop_fit t font (availH - t.settings.headerHeight) t.rows 0 0
          (by intro k hk; have := hfit k hk; linarith)]
    · intro i hi hmin hover
      have hloop := tableSplitLoop_overflow t font (availH - t.settings.headerHeight)
        i t.rows 0 0 hi
        (fun k hk => by have := hmin k hk; linarith)
        (by linarith)
      constructor
      · intro h0
        subst h0
        rw [splitNode, if_neg hneg, hloop]
        rfl
      · intro hipos
        rw [splitNode, if_neg hneg, hloop, if_neg (by omega)]
        simp

/-- Witness for C7 at a concrete two-row table: header 30, rows of height
30 each, available height 70 → data area 40 → split after the first row. -/
theorem tableNode_split_spec_witness :
    splitNode (.table ⟨[], [[], []], TableSettingsM.default⟩) 400 70 monoFont
      = .Split (.table ⟨[], [[]], TableSettingsM.default⟩)
          (.table ⟨[], [[]], TableSettingsM.default⟩) :=
  (((tableNode_split_spec ⟨[], [[], []], TableSettingsM.default⟩ monoFont 400 70).2
    (by norm_num [TableSettingsM.default])).2 1 (by norm_num)
    (by
      intro k hk
      interval_cases k
      norm_num [TableSettingsM.default, rowHeight, rowMaxLines, List.enum,
        calculateTextLines])
    (by
      norm_num [TableSettingsM.default, rowHeight, rowMaxLines, List.enum,
        calculateTextLines])).2 (by norm_num)

/-! ### C4 — pagination termination -/

/-- C4 — the split-advance loop of `render_flow` does not terminate on an
empty TextNode: `split_text_at_lines` returns an empty head and a
`Some("")` tail for an empty word list, so the node splits into itself and
the count pass never reaches Fit or Push, for any number of iterations.
(The render pass does the same, so `render_flow` loops forever on this
input.) -/
theorem empty_text_render_flow_diverges :
    splitNode (.text [] 10 none none) 495 842 monoFont
        = .Split (.text [] 10 none none) (.text [] 10 none none)
    ∧ (∀ fuel acc, countPassAux monoFont 495 842 fuel (.text [] 10 none none) acc = none)
    ∧ (∀ fuel,
        renderFlowM monoFont 595 842 none none 0 0 fuel (.text [] 10 none none) = none) := by
  have hsplit : splitNode (.text [] 10 none none) 495 842 monoFont
      = .Split (.text [] 10 none none) (.text [] 10 none none) := by
    simp [splitNode, splitTextAtLines, splitWhitespace, splitLoop, natFloor]
    norm_num
  have hcount : ∀ fuel acc,
      countPassAux monoFont 495 842 fuel (.text [] 10 none none) acc = none := by
    intro fuel
    induction fuel with
    | zero => intro acc; rfl
    | succ m ih =>
      intro acc
      rw [countPassAux, hsplit]
      exact ih _
  refine ⟨hsplit, hcount, ?_⟩
  intro fuel
  have h1 : (595 : ℚ) - 2 * 50 = 495 := by norm_num
  have h2 : (842 : ℚ) - (0 + reservedNodeHeight monoFont 595 none)
      - (0 + reservedNodeHeight monoFont 595 none) = 842 := by
    simp [reservedNodeHeight]
  simp only [renderFlowM, h1, h2, hcount]

/-! ### C3 — two-pass pagination agreement -/

/-- The running page counter of the count pass is a pure offset. -/
theorem countPassAux_shift (font : FontM) (wd ht : ℚ) :
    ∀ (fuel : ℕ) (node : LayoutNodeM) (acc : ℕ),
      countPassAux font wd ht fuel node acc
        = (countPassAux font wd ht fuel node 0).map (· + acc) := by
  intro fuel
  induction fuel with
  | zero => intro node acc; rfl
  | succ m ih =>
    intro node acc
    rw [countPassAux, countPassAux]
    cases hs : splitNode node wd ht font with
    | Fit => dsimp only; simp [Nat.add_comm]
    | Push => dsimp only; simp [Nat.add_comm]
    | Split head tail =>
      dsimp only
      rw [ih tail (acc + 1), ih tail (0 + 1)]
      cases countPassAux font wd ht m tail 0 <;> simp <;> omega

/-- The render pass follows exactly the split sequence of the count pass:
when the count pass finishes with `k` pages within the fuel bound, the
render pass produces `k` pages, and page `i` (0-based) carries the context
`(current + i, total)`. -/
theorem passes_agree (font : FontM) (wd ht : ℚ) (total : ℕ) :
    ∀ (fuel : ℕ) (node : LayoutNodeM) (current k : ℕ),
      countPassAux font wd ht fuel node 0 = some k →
      ∃ L, renderPassAux font wd ht total fuel node current = some L
        ∧ L.length = k
        ∧ ∀ (i : ℕ) (hi : i < L.length), (L.get ⟨i, hi⟩).2 = ⟨current + i, total⟩ := by
  intro fuel
  induction fuel with
  | zero => intro node current k h; exact absurd h (by simp [countPassAux])
  | succ m ih =>
    intro node current k h
    rw [countPassAux] at h
    rw [renderPassAux]
    cases hs : splitNode node wd ht font with
    | Fit =>
      rw [hs] at h
      dsimp only at h ⊢
      simp only [Option.some.injEq] at h
      refine ⟨[(node, ⟨current, total⟩)], rfl, by rw [← h]; rfl, ?_⟩
      intro i hi
      have h0 : i = 0 := by simpa using hi
      subst h0
      rfl
    | Push =>
      rw [hs] at h
      dsimp only at h ⊢
      simp only [Option.some.injEq] at h
      refine ⟨[(node, ⟨current, total⟩)], rfl, by rw [← h]; rfl, ?_⟩
      intro i hi
      have h0 : i = 0 := by simpa using hi
      subst h0
      rfl
    | Split head tail =>
      rw [hs] at h
      dsimp only at h ⊢
      rw [countPassAux_shift] at h
      cases hbase : countPassAux font wd ht m tail 0 with
      | none => rw [hbase] at h; exact absurd h (by simp)
      | some k' =>
        rw [hbase] at h
        simp at h
        obtain ⟨L', hr, hlen, hctx⟩ := ih tail (current + 1) k' hbase
        refine ⟨(head, ⟨current, total⟩) :: L', by rw [hr], by simp [hlen]; omega, ?_⟩
        intro i hi
        cases i with
        | zero => simp
        | succ j =>
          simp only [List.length_cons] at hi
          have hj : j < L'.length := by omega
          have := hctx j hj
          simp only [List.get_cons_succ]
          rw [this]
          congr 1
          omega

/-- The two final stages of `render_flow`: if the composed count pass and
render pass produce `some (n, L)`, the render output has `n` pages with
context `(i+1, n)` on page `i`. -/
theorem renderFlow_core (font : FontM) (cw bh : ℚ) (fuel : ℕ) (node : LayoutNodeM)
    (n : ℕ) (L : List (LayoutNodeM × PageContextM))
    (h : (match countPassAux font cw bh fuel node 0 with
          | none => none
          | some total =>
            match renderPassAux font cw bh total fuel node 1 with
            | some pages => some (total, pages)
            | none => none) = some (n, L)) :
    L.length = n
    ∧ (∀ (i : ℕ) (hi : i < L.length), (L.get ⟨i, hi⟩).2 = ⟨i + 1, n⟩) := by
  cases hcount : countPassAux font cw bh fuel node 0 with
  | none => rw [hcount] at h; exact absurd h (by simp)
  | some total =>
    rw [hcount] at h
    dsimp only at h
    obtain ⟨L', hr, hlen, hctx⟩ := passes_agree font cw bh total fuel node 1 total hcount
    rw [hr] at h
    simp only [Option.some.injEq, Prod.mk.injEq] at h
    obtain ⟨htot, hL⟩ := h
    subst htot
    subst hL
    refine ⟨hlen, ?_⟩
    intro i hi
    rw [hctx i hi]
    congr 1
    omega

/-- C3 — Two-pass pagination agreement: whenever `render_flow` completes,
the render pass produced exactly as many pages as the count pass counted;
page `i` (0-based) is rendered with context `(i+1, total)`, so every
`{page}` placeholder a PageNumberNode substitutes on that page equals the
1-based page index and every `{total}` equals the count-pass page total. -/
theorem render_flow_two_pass (font : FontM) (width height marginTop marginBottom : ℚ)
    (header footer : Option LayoutNodeM) (fuel : ℕ) (node : LayoutNodeM)
    (n : ℕ) (L : List (LayoutNodeM × PageContextM))
    (hflow : renderFlowM font width height header footer marginTop marginBottom fuel node
      = some (n, L)) :
    L.length = n
    ∧ (∀ (i : ℕ) (hi : i < L.length), (L.get ⟨i, hi⟩).2 = ⟨i + 1, n⟩)
    ∧ (∀ (fmt : Str) (i : ℕ) (hi : i < L.length),
        pageNumberResolvedText fmt (L.get ⟨i, hi⟩).2
          = replaceAll "{total}".data (natChars n)
              (replaceAll "{page}".data (natChars (i + 1)) fmt)) := by
  have hcore := renderFlow_core font (width - 2 * 50)
    (height - (marginTop + reservedNodeHeight font width header)
      - (marginBottom + reservedNodeHeight font width footer)) fuel node n L hflow
  refine ⟨hcore.1, hcore.2, ?_⟩
  intro fmt i hi
  rw [hcore.2 i hi]
  rfl

/-- A concrete complete `render_flow` run: one page of text. -/
theorem renderFlow_concrete_run :
    renderFlowM monoFont 595 842 none none 0 0 3 (.text "hi".data 10 none none)
      = some (1, [(.text "hi".data 10 none none, ⟨1, 1⟩)]) := by
  have hsplit : splitNode (.text "hi".data 10 none none) 495 842 monoFont = .Fit := by
    simp [splitNode, splitTextAtLines, splitWhitespace, splitLoop, natFloor, joinSp,
      FontM.measureText, FontM.shapeText, monoFont, FontM.getGlyphWidth, appendLine]
    norm_num
  have h1 : (595 : ℚ) - 2 * 50 = 495 := by norm_num
  have h2 : (842 : ℚ) - (0 + reservedNodeHeight monoFont 595 none)
      - (0 + reservedNodeHeight monoFont 595 none) = 842 := by
    simp [reservedNodeHeight]
  simp only [renderFlowM, h1, h2, countPassAux, renderPassAux, hsplit]

/-- Witness for C3 at the concrete one-page run. -/
theorem render_flow_two_pass_witness :
    ([((LayoutNodeM.text "hi".data 10 none none), (⟨1, 1⟩ : PageContextM))].length = 1) :=
  (render_flow_two_pass monoFont 595 842 0 0 none none 3
    (.text "hi".data 10 none none) 1 [(.text "hi".data 10 none none, ⟨1, 1⟩)]
    renderFlow_concrete_run).1

/-! ### C1 — the W array of embedded fonts -/

/-- Once the aggregation of `write_to` has seen a set for font index `n`,
it carries a plain union from then on. -/
theorem fontGlyphUsage_acc (n : ℕ) :
    ∀ (pages : List PageM) (s : Finset ℕ),
      pages.foldl
        (fun acc p =>
          match p.usedGlyphs n with
          | none => acc
          | some t => some (acc.getD ∅ ∪ t))
        (some s)
      = some (pages.foldl (fun acc p => acc ∪ (p.usedGlyphs n).getD ∅) s) := by
  intro pages
  induction pages with
  | nil => intro s; rfl
  | cons p ps ih =>
    intro s
    cases hp : p.usedGlyphs n with
    | none =>
      simp only [List.foldl_cons, hp, Option.getD_some]
      rw [ih s]
      congr 1
      congr 1
      simp
    | some t =>
      simp only [List.foldl_cons, hp, Option.getD_some]
      rw [ih (s ∪ t)]

/-- If at least one page carries a glyph set for font index `n`, the
aggregated usage of `write_to` is exactly the union of the per-page sets
over all pages. -/
theorem fontGlyphUsage_some (pages : List PageM) (n : ℕ)
    (h : ∃ p ∈ pages, (p.usedGlyphs n).isSome) :
    fontGlyphUsage pages n
      = some (pages.foldl (fun acc p => acc ∪ (p.usedGlyphs n).getD ∅) ∅) := by
  induction pages with
  | nil => simp at h
  | cons p ps ih =>
    cases hp : p.usedGlyphs n with
    | some t =>
      unfold fontGlyphUsage
      simp only [List.foldl_cons, hp, Option.getD_none]
      rw [fontGlyphUsage_acc n ps (∅ ∪ t)]
      simp
    | none =>
      obtain ⟨q, hq, hqs⟩ := h
      rcases List.mem_cons.mp hq with hq1 | hq2
      · subst hq1
        rw [hp] at hqs
        simp at hqs
      · unfold fontGlyphUsage
        simp only [List.foldl_cons, hp, Option.getD_none]
        have := ih ⟨q, hq2, hqs⟩
        unfold fontGlyphUsage at this
        rw [this]
        simp

/-- `write_object` preserves the object log. -/
theorem mem_objects_writeObject {x : ℕ × PdfObject} {w : PdfWriterM}
    (h : x ∈ w.objects) (id : ℕ) (obj : PdfObject) :
    x ∈ (w.writeObject id obj).objects :=
  List.mem_append_left _ h

/-- `embed_custom_font` preserves the object log. -/
theorem mem_objects_embedCustomFont {x : ℕ × PdfObject} {w : PdfWriterM}
    (h : x ∈ w.objects) (ext : ExternalFns) (font : FontM) (baseId : ℕ)
    (usedGids : Option (Finset ℕ)) :
    x ∈ (embedCustomFont ext w font baseId usedGids).1.objects := by
  simp only [embedCustomFont, PdfWriterM.writeObject, List.mem_append]
  exact Or.inl (Or.inl (Or.inl (Or.inl h)))

/-- `embed_custom_font` logs the CIDFontType2 dictionary at `baseId + 2`. -/
theorem cid_mem_embedCustomFont (ext : ExternalFns) (w : PdfWriterM) (font : FontM)
    (baseId : ℕ) (usedGids : Option (Finset ℕ)) :
    (baseId + 2, cidFontDict font usedGids (baseId + 1))
      ∈ (embedCustomFont ext w font baseId usedGids).1.objects := by
  simp only [embedCustomFont, PdfWriterM.writeObject, List.mem_append]
  exact Or.inl (Or.inr (by simp))

/-- The font-embedding loop preserves the object log. -/
theorem mem_objects_embedFontsBuffered {x : ℕ × PdfObject} (ext : ExternalFns)
    (pages : List PageM) :
    ∀ (fonts : List FontM) (i : ℕ) (w : PdfWriterM), x ∈ w.objects →
      x ∈ (embedFontsBuffered ext pages w fonts i).objects := by
  intro fonts
  induction fonts with
  | nil => intro i w h; exact h
  | cons f fs ih =>
    intro i w h
    exact ih (i + 1) _ (mem_objects_embedCustomFont h ext f (4 + 4 * i) _)

/-- The image-embedding loop preserves the object log. -/
theorem mem_objects_embedImagesBuffered {x : ℕ × PdfObject} (ext : ExternalFns) :
    ∀ (images : List ImageM) (oid : ℕ) (w : PdfWriterM), x ∈ w.objects →
      x ∈ (embedImagesBuffered ext w images oid).objects := by
  intro images
  induction images with
  | nil => intro oid w h; exact h
  | cons img imgs ih =>
    intro oid w h
    refine ih (oid + 1) _ ?_
    simp only [embedImage, PdfWriterM.writeObject, List.mem_append]
    exact Or.inl h

/-- The page-writing loop preserves the object log. -/
theorem mem_objects_writePagesBuffered {x : ℕ × PdfObject} (pagesId : ℕ)
    (fontRes : List (Str × PdfObject)) (imageIds : List ℕ) :
    ∀ (pages : List PageM) (cid : ℕ) (w : PdfWriterM), x ∈ w.objects →
      x ∈ (writePagesBuffered pagesId fontRes imageIds w pages cid).objects := by
  intro pages
  induction pages with
  | nil => intro cid w h; exact h
  | cons p ps ih =>
    intro cid w h
    exact ih (cid + 2) _ (mem_objects_writeObject (mem_objects_writeObject h _ _) _ _)

/-- `write_xref_and_trailer` leaves the object log unchanged. -/
theorem objects_writeXrefAndTrailer (w : PdfWriterM) (rootId : ℕ) :
    (w.writeXrefAndTrailer rootId).objects = w.objects := rfl

/-- The font-embedding loop of `write_to` logs, for the `n`-th font of the
processed list, the CIDFontType2 dictionary at object id `4 + 4(i+n) + 2`
built from the aggregated usage of index `i + n`. -/
theorem embedFontsBuffered_cid_mem (ext : ExternalFns) (pages : List PageM) :
    ∀ (fonts : List FontM) (i : ℕ) (w : PdfWriterM) (n : ℕ) (hn : n < fonts.length),
      (4 + 4 * (i + n) + 2,
        cidFontDict (fonts.get ⟨n, hn⟩) (fontGlyphUsage pages (i + n)) (4 + 4 * (i + n) + 1))
        ∈ (embedFontsBuffered ext pages w fonts i).objects := by
  intro fonts
  induction fonts with
  | nil => intro i w n hn; simp at hn
  | cons f fs ih =>
    intro i w n hn
    cases n with
    | zero =>
      simp only [List.get, Nat.add_zero]
      exact mem_objects_embedFontsBuffered ext pages fs (i + 1) _
        (cid_mem_embedCustomFont ext w f (4 + 4 * i) (fontGlyphUsage pages i))
    | succ m =>
      have hm : m < fs.length := Nat.lt_of_succ_lt_succ hn
      have := ih (i + 1) (embedCustomFont ext w f (4 + 4 * i) (fontGlyphUsage pages i)).1 m hm
      have harith : i + 1 + m = i + (m + 1) := by omega
      rw [harith] at this
      exact this

/-- C1 counterexample: a buffered document whose only font is referenced
by no page.  The union of `used_glyphs[0]` over all pages is empty, yet the
CIDFontType2 object carries the full streaming-style W array
`[ 0 [ w0 w1 ] ]`, not the empty list of the (empty) union. -/
theorem W_array_claim_counterexample :
    (docNoUse.writeTo idExt).toOption.map (fun w => w.objects.lookup 6)
      = some (some (cidFontDict abFont none 5))
    ∧ buildWArray abFont none
        = .array [.integer 0, .array [.integer 500, .integer 600]]
    ∧ PdfObject.array [.integer 0, .array [.integer 500, .integer 600]]
        ≠ .array [] := by
  refine ⟨rfl, rfl, ?_⟩
  intro hcontra
  simp at hcontra

/-- C1 (amended) — Buffered glyph-usage closure: in a buffered document,
for every custom font `n` that is referenced by at least one page, the
CIDFontType2 object written by `write_to` (at object id `4 + 4n + 2`)
carries the W array of exactly the union of `used_glyphs[n]` over all
pages, in ascending gid order, each gid paired with a one-element array of
its `hmtx` advance scaled by `1000/units_per_em` (truncated); a font
referenced by no page falls back to the streaming-style full array, which
is also the form `[ 0 [ w0 ... w_N-1 ] ]` used in streaming mode. -/
theorem buffered_W_array (ext : ExternalFns) (d : DocumentM) (pages : List PageM)
    (n : ℕ) (hmode : d.mode = .Buffered pages) (hn : n < d.fonts.length)
    (hpresent : ∃ p ∈ pages, (p.usedGlyphs n).isSome) :
    (∃ wr, d.writeTo ext = .ok wr
      ∧ (4 + 4 * n + 2,
          cidFontDict (d.fonts.get ⟨n, hn⟩)
            (some (pages.foldl (fun acc p => acc ∪ (p.usedGlyphs n).getD ∅) ∅))
            (4 + 4 * n + 1)) ∈ wr.objects)
    ∧ (∀ (f : FontM) (s : Finset ℕ),
        buildWArray f (some s)
          = .array ((s.sort (· ≤ ·)).flatMap fun gid =>
              [.integer gid, .array [.integer (pdfGlyphWidth f gid)]]))
    ∧ (∀ f : FontM,
        buildWArray f none
          = .array [.integer 0,
              .array ((List.range f.numberOfGlyphs).map fun gid =>
                .integer (pdfGlyphWidth f gid))]) := by
  refine ⟨?_, fun f s => rfl, fun f => rfl⟩
  obtain ⟨mode, fonts, fe, imgs⟩ := d
  simp only at hmode hn hpresent
  subst hmode
  have hcid := embedFontsBuffered_cid_mem ext pages fonts 0
    ((PdfWriterM.new.writeObject 1 (catalogDict 2)).writeObject 2
      (pagesDict ((List.range pages.length).map fun i =>
        4 + 4 * fonts.length + imgs.length + 2 * i + 1))
      |>.writeObject 3 helveticaDict) n hn
  simp only [Nat.zero_add] at hcid
  rw [fontGlyphUsage_some pages n hpresent] at hcid
  refine ⟨_, rfl, ?_⟩
  exact mem_objects_writePagesBuffered _ _ _ pages _ _
    (mem_objects_embedImagesBuffered ext imgs _ _ hcid)

/-- Witness for C1 at a concrete document: one font, one page using it. -/
theorem buffered_W_array_witness :
    ∃ wr, docUseA.writeTo idExt = .ok wr
      ∧ (4 + 4 * 0 + 2,
          cidFontDict (docUseA.fonts.get ⟨0, by decide⟩)
            (some ([pageA].foldl (fun acc p => acc ∪ (p.usedGlyphs 0).getD ∅) ∅))
            (4 + 4 * 0 + 1)) ∈ wr.objects :=
  (buffered_W_array idExt docUseA [pageA] 0 rfl (by decide)
    ⟨pageA, by simp, rfl⟩).1

/-! ### C2 — text split soundness -/

/-- Measurement is additive over concatenation (it sums per-glyph
advances, one glyph per character). -/
theorem measureText_append (font : FontM) (size : ℚ) (a b : Str) :
    font.measureText (a ++ b) size
      = font.measureText a size + font.measureText b size := by
  simp [FontM.measureText, FontM.shapeText, List.map_append]

/-- Measurement of the empty string. -/
theorem measureText_nil (font : FontM) (size : ℚ) : font.measureText [] size = 0 := by
  simp [FontM.measureText, FontM.shapeText]

/-- Measurement is nonnegative for a nonnegative size. -/
theorem measureText_nonneg (font : FontM) (size : ℚ) (hsz : 0 ≤ size) (s : Str) :
    0 ≤ font.measureText s size := by
  unfold FontM.measureText FontM.shapeText
  simp only [List.map_map]
  apply List.sum_nonneg
  intro x hx
  simp only [List.mem_map] at hx
  obtain ⟨c, -, rfl⟩ := hx
  have h1 : (0 : ℚ) ≤ (font.getGlyphWidth (font.charGid c) : ℚ) := by positivity
  have h2 : (0 : ℚ) ≤ size / (font.unitsPerEm : ℚ) := by positivity
  exact mul_nonneg h1 h2

/-- Joining two nonempty word lists inserts one space at the seam. -/
theorem joinSp_append (xs ys : List Str) (hx : xs ≠ []) (hy : ys ≠ []) :
    joinSp (xs ++ ys) = joinSp xs ++ ' ' :: joinSp ys := by
  induction xs with
  | nil => exact absurd rfl hx
  | cons a as ih =>
    cases as with
    | nil =>
      cases ys with
      | nil => exact absurd rfl hy
      | cons b bs => simp [joinSp]
    | cons a2 as2 =>
      have := ih (by simp)
      simp only [List.cons_append, joinSp] at this ⊢
      rw [this]
      simp

/-- A nonempty list of nonempty words joins to a nonempty string. -/
theorem joinSp_ne_nil (ws : List Str) (hws : ws ≠ []) (hgood : ∀ w ∈ ws, w ≠ []) :
    joinSp ws ≠ [] := by
  cases ws with
  | nil => exact absurd rfl hws
  | cons w rest =>
    cases rest with
    | nil => exact hgood w (by simp)
    | cons w2 rest2 =>
      simp only [joinSp]
      intro hcontra
      exact hgood w (by simp) (List.append_eq_nil.mp hcontra).1

/-- Flushing a line: for a good flushed prefix and a nonempty line, the
head string stays a space-joined word list. -/
theorem appendLine_joinSp (ws0 buf : List Str) (hbuf : buf ≠ [])
    (hgood : ∀ w ∈ ws0, w ≠ []) :
    appendLine (joinSp ws0) (joinSp buf) = joinSp (ws0 ++ buf) := by
  cases hws0 : ws0 with
  | nil => simp [appendLine, joinSp]
  | cons a as =>
    rw [appendLine, if_neg (joinSp_ne_nil (a :: as) (by simp) (hws0 ▸ hgood)),
      joinSp_append (a :: as) buf (by simp) hbuf]

/-- A prefix of a join measures no more than the whole join. -/
theorem measure_joinSp_prefix (font : FontM) (size : ℚ) (hsz : 0 ≤ size)
    (xs ys : List Str) (hx : xs ≠ []) :
    font.measureText (joinSp xs) size ≤ font.measureText (joinSp (xs ++ ys)) size := by
  cases ys with
  | nil => simp
  | cons b bs =>
    rw [joinSp_append xs (b :: bs) hx (by simp), measureText_append]
    have := measureText_nonneg font size hsz (' ' :: joinSp (b :: bs))
    linarith

/-- Every word of a list measures no more than the space-join of the
list. -/
theorem measure_word_le_join (font : FontM) (size : ℚ) (hsz : 0 ≤ size) :
    ∀ (ws : List Str) (w : Str), w ∈ ws →
      font.measureText w size ≤ font.measureText (joinSp ws) size := by
  intro ws
  induction ws with
  | nil => intro w hw; simp at hw
  | cons a as ih =>
    intro w hw
    rcases List.mem_cons.mp hw with hw1 | hw2
    · subst hw1
      have : joinSp (w :: as) = joinSp ([w] ++ as) := by simp
      rw [this]
      exact measure_joinSp_prefix font size hsz [w] as (by simp)
    · have h1 := ih w hw2
      cases as with
      | nil => simp at hw2
      | cons a2 as2 =>
        have : joinSp (a :: a2 :: as2) = joinSp ([a] ++ (a2 :: as2)) := by simp
        rw [this, joinSp_append [a] (a2 :: as2) (by simp) (by simp), measureText_append]
        have h2 := measureText_nonneg font size hsz a
        have h3 : font.measureText (' ' :: joinSp (a2 :: as2)) size
            = font.measureText [' '] size + font.measureText (joinSp (a2 :: as2)) size := by
          have : (' ' :: joinSp (a2 :: as2) : Str) = [' '] ++ joinSp (a2 :: as2) := rfl
          rw [this, measureText_append]
        have h2' := measureText_nonneg font size hsz (joinSp [a])
        have h4 := measureText_nonneg font size hsz [' ']
        linarith

theorem splitWhitespace_cons_nonws_ws (c d : Char) (t : Str)
    (hc : c.isWhitespace = false) (hd : d.isWhitespace = true) :
    splitWhitespace (c :: d :: t) = [c] :: splitWhitespace (d :: t) := by
  conv_lhs => rw [splitWhitespace.eq_def]
  simp [hc, hd]

theorem splitWhitespace_single_nonws (c : Char) (hc : c.isWhitespace = false) :
    splitWhitespace [c] = [[c]] := by
  conv_lhs => rw [splitWhitespace.eq_def]
  simp [hc]

theorem splitWhitespace_cons_nonws_nonws (c d : Char) (t : Str)
    (hc : c.isWhitespace = false) (hd : d.isWhitespace = false)
    (w : Str) (ws : List Str) (h : splitWhitespace (d :: t) = w :: ws) :
    splitWhitespace (c :: d :: t) = (c :: w) :: ws := by
  conv_lhs => rw [splitWhitespace.eq_def]
  simp [hc, hd, h]



theorem splitWhitespace_word_append (w s : Str) (hw : w ≠ [])
    (hgood : ∀ c ∈ w, c.isWhitespace = false)
    (hs : s = [] ∨ ∃ d t, s = d :: t ∧ d.isWhitespace = true) :
    splitWhitespace (w ++ s) = w :: splitWhitespace s := by
  induction w with
  | nil => exact absurd rfl hw
  | cons c w' ih =>
    have hc : c.isWhitespace = false := hgood c (by simp)
    cases w' with
    | nil =>
      rcases hs with rfl | ⟨d, t, rfl, hd⟩
      · simpa [splitWhitespace] using splitWhitespace_single_nonws c hc
      · exact splitWhitespace_cons_nonws_ws c d t hc hd
    | cons c2 w2 =>
      have hc2 : c2.isWhitespace = false := hgood c2 (by simp)
      have ihe := ih (by simp) (fun d hd => hgood d (by simp [hd]))
      exact splitWhitespace_cons_nonws_nonws c c2 (w2 ++ s) hc hc2 _ _ ihe

theorem splitWhitespace_joinSp (ws : List Str)
    (hgood : ∀ w ∈ ws, w ≠ [] ∧ ∀ c ∈ w, c.isWhitespace = false) :
    splitWhitespace (joinSp ws) = ws := by
  induction ws with
  | nil => rfl
  | cons w rest ih =>
    obtain ⟨hw, hwc⟩ := hgood w (by simp)
    cases rest with
    | nil =>
      have := splitWhitespace_word_append w [] hw hwc (Or.inl rfl)
      simpa [joinSp, splitWhitespace] using this
    | cons w2 rest2 =>
      have hj : joinSp (w :: w2 :: rest2) = w ++ ' ' :: joinSp (w2 :: rest2) := rfl
      rw [hj, splitWhitespace_word_append w (' ' :: joinSp (w2 :: rest2)) hw hwc
        (Or.inr ⟨' ', joinSp (w2 :: rest2), rfl, by decide⟩)]
      have hrest := ih (fun x hx => hgood x (by simp [hx]))
      have hsp : splitWhitespace (' ' :: joinSp (w2 :: rest2))
          = splitWhitespace (joinSp (w2 :: rest2)) := by
        conv_lhs => rw [splitWhitespace.eq_def]
        simp
      rw [hsp, hrest]

/-- One fitting step of the line-count loop. -/
theorem calcLinesAux_cons_fit (font : FontM) (size W : ℚ) (word : Str)
    (r buf : List Str) (cnt : ℕ)
    (hg : font.measureText word size ≤ W)
    (hf : font.measureText (joinSp (buf ++ [word])) size ≤ W) :
    calcLinesAux font (some W) size (word :: r) buf cnt
      = calcLinesAux font (some W) size r (buf ++ [word]) cnt := by
  rw [calcLinesAux, if_neg (by simp [not_lt.mpr hg]), if_pos (by simp [hf])]

/-- One flushing step of the line-count loop. -/
theorem calcLinesAux_cons_flush (font : FontM) (size W : ℚ) (word : Str)
    (r buf : List Str) (cnt : ℕ)
    (hg : font.measureText word size ≤ W)
    (hnf : ¬ font.measureText (joinSp (buf ++ [word])) size ≤ W)
    (hb : buf ≠ []) :
    calcLinesAux font (some W) size (word :: r) buf cnt
      = calcLinesAux font (some W) size r [word] (cnt + 1) := by
  rw [calcLinesAux, if_neg (by simp [not_lt.mpr hg]), if_neg (by simp [hnf]),
    if_neg hb]

/-- If the whole remaining join fits on one line, the loop adds at most one
line. -/
theorem calcLinesAux_all_fit (font : FontM) (size W : ℚ) (hsz : 0 ≤ size) :
    ∀ (ws buf : List Str) (cnt : ℕ),
      font.measureText (joinSp (buf ++ ws)) size ≤ W →
      (∀ w ∈ ws, font.measureText w size ≤ W) →
      calcLinesAux font (some W) size ws buf cnt ≤ cnt + 1 := by
  intro ws
  induction ws with
  | nil =>
    intro buf cnt hall hws
    rw [calcLinesAux]
    split <;> omega
  | cons w r ih =>
    intro buf cnt hall hws
    have hg : font.measureText w size ≤ W := hws w (by simp)
    have hpre : font.measureText (joinSp (buf ++ [w])) size
        ≤ font.measureText (joinSp (buf ++ w :: r)) size := by
      have : buf ++ w :: r = (buf ++ [w]) ++ r := by simp
      rw [this]
      exact measure_joinSp_prefix font size hsz (buf ++ [w]) r (by simp)
    rw [calcLinesAux_cons_fit font size W w r buf cnt hg (le_trans hpre hall)]
    apply ih (buf ++ [w]) cnt _ (fun x hx => hws x (by simp [hx]))
    have : (buf ++ [w]) ++ r = buf ++ w :: r := by simp
    rw [this]
    exact hall

/-- The split loop preserves head-string structure: a `Split` result's head
is a space-join of good words whose recount stays within the line budget.
The recount invariant equates a fresh count of the consumed words with the
loop position. -/
theorem splitLoop_recount (font : FontM) (size W : ℚ) (maxLines : ℕ) :
    ∀ (ws ws0 buf : List Str) (cur : ℕ) (hd' tl' : Str),
      (∀ w ∈ ws, font.measureText w size ≤ W ∧ w ≠ [] ∧ ∀ c ∈ w, c.isWhitespace = false) →
      (∀ w ∈ ws0, w ≠ [] ∧ ∀ c ∈ w, c.isWhitespace = false) →
      (∀ w ∈ buf, w ≠ [] ∧ ∀ c ∈ w, c.isWhitespace = false) →
      1 ≤ cur → cur ≤ maxLines →
      (∀ r, calcLinesAux font (some W) size (ws0 ++ buf ++ r) [] 0
        = calcLinesAux font (some W) size r buf (cur - 1)) →
      splitLoop font W size maxLines ws (joinSp ws0) buf cur = (hd', some tl') →
      ∃ ws1, hd' = joinSp ws1
        ∧ (∀ w ∈ ws1, w ≠ [] ∧ ∀ c ∈ w, c.isWhitespace = false)
        ∧ calcLinesAux font (some W) size ws1 [] 0 ≤ maxLines := by
  intro ws
  induction ws with
  | nil =>
    intro ws0 buf cur hd' tl' hws hg0 hgb hc1 hc2 hre hsplit
    rw [splitLoop] at hsplit
    by_cases hb : buf = []
    · subst hb
      rw [if_neg (by simp)] at hsplit
      obtain ⟨h1, h2⟩ := Prod.mk.injEq .. ▸ hsplit
      refine ⟨ws0, h1.symm ▸ rfl, hg0, ?_⟩
      have h3 := hre []
      simp only [List.append_nil] at h3
      have h4 : calcLinesAux font (some W) size ([] : List Str) [] (cur - 1) = cur - 1 := rfl
      rw [h3, h4]
      omega
    · rw [if_pos hb, if_pos hc2] at hsplit
      simp at hsplit
  | cons word rest ih =>
    intro ws0 buf cur hd' tl' hws hg0 hgb hc1 hc2 hre hsplit
    obtain ⟨hwfit, hwne, hwc⟩ := hws word (by simp)
    rw [splitLoop] at hsplit
    by_cases hfit : font.measureText (joinSp (buf ++ [word])) size ≤ W
    · rw [if_pos (by simp [hfit])] at hsplit
      refine ih ws0 (buf ++ [word]) cur hd' tl'
        (fun w hw => hws w (by simp [hw])) hg0 ?_ hc1 hc2 ?_ hsplit
      · intro w hw
        rcases List.mem_append.mp hw with h | h
        · exact hgb w h
        · simp at h; subst h; exact ⟨hwne, hwc⟩
      · intro r
        have h1 := hre (word :: r)
        rw [calcLinesAux_cons_fit font size W word r buf (cur - 1) hwfit hfit] at h1
        rw [show ws0 ++ (buf ++ [word]) ++ r = ws0 ++ buf ++ word :: r by simp]
        exact h1
    · rw [if_neg (by simp [hfit])] at hsplit
      by_cases hb : buf = []
      · exfalso
        apply hfit
        subst hb
        simpa [joinSp] using hwfit
      · rw [if_neg hb] at hsplit
        by_cases hbreak : maxLines ≤ cur
        · rw [if_pos hbreak] at hsplit
          obtain ⟨h1, h2⟩ := Prod.mk.injEq .. ▸ hsplit
          refine ⟨ws0 ++ buf, ?_, ?_, ?_⟩
          · rw [← h1, appendLine_joinSp ws0 buf hb (fun w hw => (hg0 w hw).1)]
          · intro w hw
            rcases List.mem_append.mp hw with h | h
            · exact hg0 w h
            · exact hgb w h
          · have h3 := hre []
            simp only [List.append_nil] at h3
            rw [h3, calcLinesAux, if_neg hb]
            omega
        · rw [if_neg hbreak] at hsplit
          have hw1 : leQI (font.measureText (joinSp [word]) size) (some W) = true := by
            simpa [joinSp] using hwfit
          rw [if_pos hw1] at hsplit
          rw [appendLine_joinSp ws0 buf hb (fun w hw => (hg0 w hw).1)] at hsplit
          refine ih (ws0 ++ buf) [word] (cur + 1) hd' tl'
            (fun w hw => hws w (by simp [hw])) ?_ ?_ (by omega) (by omega) ?_ hsplit
          · intro w hw
            rcases List.mem_append.mp hw with h | h
            · exact hg0 w h
            · exact hgb w h
          · intro w hw
            simp at hw; subst hw; exact ⟨hwne, hwc⟩
          · intro r
            have h1 := hre (word :: r)
            rw [calcLinesAux_cons_flush font size W word r buf (cur - 1) hwfit hfit hb] at h1
            have hcc : cur - 1 + 1 = cur := by omega
            rw [hcc] at h1
            rw [show (ws0 ++ buf) ++ [word] ++ r = ws0 ++ buf ++ word :: r by simp]
            simpa using h1

theorem splitWhitespace_cons_ws (c : Char) (t : Str) (hc : c.isWhitespace = true) :
    splitWhitespace (c :: t) = splitWhitespace t := by
  conv_lhs => rw [splitWhitespace.eq_def]
  simp [hc]

theorem splitWhitespace_cons_nonws_nil (c d : Char) (t : Str)
    (hc : c.isWhitespace = false) (hd : d.isWhitespace = false)
    (h : splitWhitespace (d :: t) = []) :
    splitWhitespace (c :: d :: t) = [[c]] := by
  conv_lhs => rw [splitWhitespace.eq_def]
  simp [hc, hd, h]

/-- Every word produced by whitespace splitting is nonempty and free of
whitespace characters. -/
theorem splitWhitespace_good :
    ∀ (s : Str), ∀ w ∈ splitWhitespace s, w ≠ [] ∧ ∀ c ∈ w, c.isWhitespace = false := by
  intro s
  induction s with
  | nil => intro w hw; simp [splitWhitespace] at hw
  | cons c rest ih =>
    intro w hw
    by_cases hc : c.isWhitespace = true
    · rw [splitWhitespace_cons_ws c rest hc] at hw
      exact ih w hw
    · replace hc : c.isWhitespace = false := by simpa using hc
      cases rest with
      | nil =>
        rw [splitWhitespace_single_nonws c hc] at hw
        simp at hw
        subst hw
        exact ⟨by simp, by simpa using hc⟩
      | cons d t =>
        by_cases hd : d.isWhitespace = true
        · rw [splitWhitespace_cons_nonws_ws c d t hc hd] at hw
          rcases List.mem_cons.mp hw with rfl | hw2
          · exact ⟨by simp, by simpa using hc⟩
          · exact ih w hw2
        · replace hd : d.isWhitespace = false := by simpa using hd
          cases hsp : splitWhitespace (d :: t) with
          | nil =>
            rw [splitWhitespace_cons_nonws_nil c d t hc hd hsp] at hw
            simp at hw
            subst hw
            exact ⟨by simp, by simpa using hc⟩
          | cons w0 ws0 =>
            rw [splitWhitespace_cons_nonws_nonws c d t hc hd w0 ws0 hsp] at hw
            rcases List.mem_cons.mp hw with rfl | hw2
            · obtain ⟨-, h0c⟩ := ih w0 (by rw [hsp]; simp)
              refine ⟨by simp, ?_⟩
              intro x hx
              rcases List.mem_cons.mp hx with rfl | hx2
              · exact hc
              · exact h0c x hx2
            · exact ih w (by rw [hsp]; simp [hw2])

/-! ### C2 main theorems -/

/-- C2 (amended) — text split soundness: if `TextNode::split` returns
`Split(head, tail)` and every whitespace-separated word of the text
measures at most `avail_w` (the amendment: the claim as stated fails for
over-wide words, see the counterexample), then the head is a TextNode with
the same size, colour and background whose measured height under
`max_width = avail_w` is at most `avail_h`, and the tail is a TextNode
carrying the same size, colour and background. -/
theorem textNode_split_sound (font : FontM) (txt : Str) (size availW availH : ℚ)
    (color bg : Option ColorM) (nh nt : LayoutNodeM)
    (hsz : 0 < size)
    (hwords : ∀ w ∈ splitWhitespace txt, font.measureText w size ≤ availW)
    (hsplit : splitNode (.text txt size color bg) availW availH font = .Split nh nt) :
    (∃ htxt, nh = .text htxt size color bg
        ∧ (measureNode nh (.loose (some availW) none) font).height ≤ availH)
      ∧ ∃ ttxt, nt = .text ttxt size color bg := by
  simp only [splitNode] at hsplit
  by_cases hm0 : natFloor (availH / (size * (6 / 5))) = 0
  · rw [if_pos hm0] at hsplit
    exact absurd hsplit (by simp)
  · rw [if_neg hm0] at hsplit
    set m := natFloor (availH / (size * (6 / 5))) with hm
    have hm1 : 1 ≤ m := Nat.one_le_iff_ne_zero.mpr hm0
    cases hst : splitTextAtLines font availW size txt m with
    | mk h' topt =>
      rw [hst] at hsplit
      cases topt with
      | none => exact absurd hsplit (by simp)
      | some t' =>
        simp only [SplitActionM.Split.injEq] at hsplit
        obtain ⟨hh, ht⟩ := hsplit
        -- decompose the split loop run
        rw [splitTextAtLines, if_neg hm0] at hst
        obtain ⟨ws1, hh1, hgood1, hcount⟩ :=
          splitLoop_recount font size availW m (splitWhitespace txt) [] [] 1 h' t'
            (fun w hw => ⟨hwords w hw, splitWhitespace_good txt w hw⟩)
            (by simp) (by simp) le_rfl hm1 (fun r => rfl) hst
        -- budget: m lines of leading fit in availH
        have hlead : (0 : ℚ) < size * (6 / 5) := by positivity
        have hmq : (m : ℚ) * (size * (6 / 5)) ≤ availH := by
          have hfl : (1 : ℤ) ≤ ⌊availH / (size * (6 / 5))⌋ := by
            have h0 : natFloor (availH / (size * (6 / 5))) ≠ 0 := hm0
            simp only [natFloor] at h0
            omega
          have h1 : ((m : ℤ) : ℚ) ≤ availH / (size * (6 / 5)) := by
            have h2 : (m : ℤ) = ⌊availH / (size * (6 / 5))⌋ := by
              rw [hm]
              simp only [natFloor]
              omega
            rw [h2]
            exact Int.floor_le _
          have h3 : (m : ℚ) ≤ availH / (size * (6 / 5)) := by exact_mod_cast h1
          calc (m : ℚ) * (size * (6 / 5))
              ≤ (availH / (size * (6 / 5))) * (size * (6 / 5)) := by
                exact mul_le_mul_of_nonneg_right h3 (le_of_lt hlead)
            _ = availH := div_mul_cancel₀ availH (ne_of_gt hlead)
        refine ⟨⟨h', hh.symm, ?_⟩, t', ht.symm⟩
        rw [← hh]
        simp only [measureNode, ConstraintsM.loose]
        -- the measured line count of the head stays within m
        have hlines : calculateTextLines font
            (some (min (font.measureText h' size) availW)) size h' ≤ m := by
          rw [calculateTextLines]
          by_cases hnil : h' = []
          · rw [if_pos hnil]; exact hm1
          · rw [if_neg hnil]
            refine max_le ?_ hm1
            have hsw : splitWhitespace h' = ws1 := by
              rw [hh1]
              exact splitWhitespace_joinSp ws1 hgood1
            rw [hsw]
            rcases le_total (font.measureText h' size) availW with hle | hge
            · rw [min_eq_left hle]
              have hall : font.measureText (joinSp ([] ++ ws1)) size
                  ≤ font.measureText h' size := by
                rw [List.nil_append, ← hh1]
              have := calcLinesAux_all_fit font size (font.measureText h' size)
                (le_of_lt hsz) ws1 [] 0 hall
                (fun w hw => by
                  rw [hh1]
                  exact measure_word_le_join font size (le_of_lt hsz) ws1 w hw)
              omega
            · rw [min_eq_right hge]
              exact hcount
        have hcast : ((calculateTextLines font
            (some (min (font.measureText h' size) availW)) size h' : ℕ) : ℚ) ≤ (m : ℚ) := by
          exact_mod_cast hlines
        calc ((calculateTextLines font
              (some (min (font.measureText h' size) availW)) size h' : ℕ) : ℚ)
              * (size * (6 / 5))
            ≤ (m : ℚ) * (size * (6 / 5)) := mul_le_mul_of_nonneg_right hcast (le_of_lt hlead)
          _ ≤ availH := hmq



/-- C2 counterexample — the claim as stated is false: the text
`"abcdef gh"` at size 10 in a 30×13 area splits with head `"abcdef"`
(the split loop keeps an over-wide word on one line), but measuring that
head at `max_width = 30` re-wraps it by characters into 2 lines of
leading 12, so the head's measured height 24 exceeds `avail_h = 13`. -/
theorem textNode_split_claim_counterexample :
    splitNode (.text "abcdef gh".data 10 none none) 30 13 monoFont
        = .Split (.text "abcdef".data 10 none none) (.text "gh".data 10 none none)
      ∧ 13 < (measureNode (.text "abcdef".data 10 none none)
          (.loose (some 30) none) monoFont).height := by
  have hm : natFloor ((13 : ℚ) / (10 * (6 / 5))) = 1 := by norm_num [natFloor]
  have hsp : splitTextAtLines monoFont 30 10 "abcdef gh".data 1
      = ("abcdef".data, some "gh".data) := by
    norm_num [splitTextAtLines, splitLoop, splitWhitespace, joinSp, appendLine,
      FontM.measureText, FontM.shapeText, FontM.getGlyphWidth, monoFont]
  have hmeas : monoFont.measureText "abcdef".data 10 = 60 := by
    norm_num [FontM.measureText, FontM.shapeText, FontM.getGlyphWidth, monoFont]
  have hct : calculateTextLines monoFont (some 30) 10 "abcdef".data = 2 := by
    norm_num [calculateTextLines, calcLinesAux, charBreakCount, splitWhitespace,
      FontM.measureText, FontM.shapeText, FontM.getGlyphWidth, monoFont]
    decide
  constructor
  · simp only [splitNode]
    rw [hm, if_neg (by norm_num : ¬ (1 : ℕ) = 0), hsp]
  · simp only [measureNode, ConstraintsM.loose]
    rw [hmeas, show min (60 : ℚ) 30 = 30 from by norm_num, hct]
    norm_num

/-- The amended text-split soundness applied to `"aa bb"` at size 10 in a
20×13 area with the monospaced test face: both words fit the width, the
split head is `"aa"`, the tail `"bb"`, and the head's measured height 12
stays within 13. -/
theorem textNode_split_sound_witness :
    (∃ htxt, (LayoutNodeM.text "aa".data 10 none none) = .text htxt 10 none none
        ∧ (measureNode (.text "aa".data 10 none none)
            (.loose (some 20) none) monoFont).height ≤ 13)
      ∧ ∃ ttxt, (LayoutNodeM.text "bb".data 10 none none) = .text ttxt 10 none none :=
  textNode_split_sound monoFont "aa bb".data 10 20 13 none none
    (.text "aa".data 10 none none) (.text "bb".data 10 none none)
    (by norm_num)
    (by
      intro w hw
      have hws : splitWhitespace "aa bb".data = ["aa".data, "bb".data] := by decide
      rw [hws] at hw
      rcases List.mem_cons.mp hw with rfl | hw2
      · norm_num [FontM.measureText, FontM.shapeText, FontM.getGlyphWidth, monoFont]
      · simp at hw2
        subst hw2
        norm_num [FontM.measureText, FontM.shapeText, FontM.getGlyphWidth, monoFont])
    (by
      have hm : natFloor ((13 : ℚ) / (10 * (6 / 5))) = 1 := by norm_num [natFloor]
      have hsp : splitTextAtLines monoFont 20 10 "aa bb".data 1
          = ("aa".data, some "bb".data) := by
        norm_num [splitTextAtLines, splitLoop, splitWhitespace, joinSp, appendLine,
          FontM.measureText, FontM.shapeText, FontM.getGlyphWidth, monoFont]
      simp only [splitNode]
      rw [hm, if_neg (by norm_num : ¬ (1 : ℕ) = 0), hsp])

end PDFCore
